import Mathlib

/-!
Shallow embedding of the schema-resolution and stable-naming engine of the
`eugene` code generator (package `internal/golang`: `naming.go`, `registry.go`,
`types.go`, data model from `internal/model/spec.go`).

Modelling conventions:
* Go strings are `String`; the byte-level operations of `naming.go` are modelled
  at the character level, which coincides with the source for ASCII input (all
  identifiers and enum literals the engine handles in the claims are ASCII).
* Go maps are association lists; where the source only reads and writes a map,
  `alookup`/`aset` reproduce the map semantics exactly.  Where the source
  iterates a map (an order Go leaves unspecified), the iteration order is kept
  explicit: the discriminator mapping is carried as an ordered list of entries,
  and set-typed maps (`requiredMap`, `seenProps`, `mappedImports`) are realised
  as insertion-ordered duplicate-free lists, a fixed representative of the
  unordered Go map.
* Go `any` enum values are `JValue`; only strings survive `toStringSlice`,
  exactly as in `registry.go`.
* The resolver recursion of `types.go` additionally chases `$ref`s through the
  schema-lookup capability, which is not structurally decreasing, so the mutual
  resolver functions take a fuel argument; fuel exhaustion returns the generic
  placeholder and leaves the state unchanged.  Every theorem either quantifies
  over all fuel values or supplies enough fuel for the input at hand.
-/

/-- Enum literal values, the `[]any` of the Go model. `vInt`/`vBool` stand for
the non-string values that `toStringSlice` drops. -/
inductive JValue where
  | vStr (s : String)
  | vInt (n : Int)
  | vBool (b : Bool)
deriving DecidableEq, Repr

/-- Schema type tags from `internal/model/spec.go`; `tNone` is the Go zero
value (empty string). -/
inductive SchemaType where
  | tString | tNumber | tInteger | tBoolean | tArray | tObject | tNull | tNone
deriving DecidableEq, Repr

/-- Discriminator for oneOf/anyOf polymorphism.  The mapping is the Go
`map[string]string` together with one concrete iteration order. -/
structure Discriminator where
  propertyName : String
  mapping : List (String × String)
deriving DecidableEq, Repr

/-- Canonical schema node (`model.Schema`).  Properties carry `Option Schema`
because the Go `*model.Schema` of a property may be nil.  The numeric
validation-constraint fields of the source struct are omitted: the resolver
never reads them. -/
inductive Schema where
  | mk (name description : String) (type : SchemaType) (format : String)
      (properties : List (String × Option Schema)) (required : List String)
      (items : Option Schema) (enum : List JValue)
      (allOf oneOf anyOf : List Schema)
      (discriminator : Option Discriminator)
      (ref : String)
      (additionalProperties : Option Schema)

def Schema.name : Schema → String
  | .mk n _ _ _ _ _ _ _ _ _ _ _ _ _ => n

def Schema.description : Schema → String
  | .mk _ d _ _ _ _ _ _ _ _ _ _ _ _ => d

def Schema.type : Schema → SchemaType
  | .mk _ _ t _ _ _ _ _ _ _ _ _ _ _ => t

def Schema.format : Schema → String
  | .mk _ _ _ f _ _ _ _ _ _ _ _ _ _ => f

def Schema.properties : Schema → List (String × Option Schema)
  | .mk _ _ _ _ p _ _ _ _ _ _ _ _ _ => p

def Schema.required : Schema → List String
  | .mk _ _ _ _ _ r _ _ _ _ _ _ _ _ => r

def Schema.items : Schema → Option Schema
  | .mk _ _ _ _ _ _ i _ _ _ _ _ _ _ => i

def Schema.enum : Schema → List JValue
  | .mk _ _ _ _ _ _ _ e _ _ _ _ _ _ => e

def Schema.allOf : Schema → List Schema
  | .mk _ _ _ _ _ _ _ _ a _ _ _ _ _ => a

def Schema.oneOf : Schema → List Schema
  | .mk _ _ _ _ _ _ _ _ _ o _ _ _ _ => o

def Schema.anyOf : Schema → List Schema
  | .mk _ _ _ _ _ _ _ _ _ _ a _ _ _ => a

def Schema.discriminator : Schema → Option Discriminator
  | .mk _ _ _ _ _ _ _ _ _ _ _ d _ _ => d

def Schema.ref : Schema → String
  | .mk _ _ _ _ _ _ _ _ _ _ _ _ r _ => r

def Schema.additionalProperties : Schema → Option Schema
  | .mk _ _ _ _ _ _ _ _ _ _ _ _ _ a => a

/-- Copy of a schema with the synthesized name injected
(`resolvedSchema := *s; resolvedSchema.Name = nestedName`). -/
def Schema.setName : Schema → String → Schema
  | .mk _ d t f p r i e al o an di rf ap, n => .mk n d t f p r i e al o an di rf ap

/-- Association-list lookup: the read side of a Go `map[string]α`. -/
def alookup {α : Type} : List (String × α) → String → Option α
  | [], _ => none
  | (k, v) :: rest, key => if k = key then some v else alookup rest key

/-- Association-list write: the assignment side of a Go `map[string]α`
(overwrite if present, add otherwise). -/
def aset {α : Type} : List (String × α) → String → α → List (String × α)
  | [], k, v => [(k, v)]
  | (k', v') :: rest, k, v => if k' = k then (k, v) :: rest else (k', v') :: aset rest k v

/-- Set-typed Go map (`map[string]bool` used as a set), kept as an
insertion-ordered duplicate-free list. -/
def insertSet (l : List String) (x : String) : List String :=
  if x ∈ l then l else l ++ [x]

/-- Strict lexicographic order on character lists.  UTF-8 encoding preserves
code-point order, so this is exactly Go's byte-wise string comparison. -/
def charListLt : List Char → List Char → Bool
  | [], [] => false
  | [], _ :: _ => true
  | _ :: _, [] => false
  | a :: as, b :: bs => if a < b then true else if b < a then false else charListLt as bs

/-- Go's `a < b` on strings. -/
def strLt (a b : String) : Bool := charListLt a.data b.data

/-- Go's `a <= b` on strings. -/
def strLe (a b : String) : Bool := !(strLt b a)

/-- Insertion step for the ascending string sort. -/
def insertSorted (x : String) : List String → List String
  | [] => [x]
  | y :: ys => if strLe x y then x :: y :: ys else y :: insertSorted x ys

/-- Ascending string sort (`sort.Strings`). -/
def sortStrings (l : List String) : List String :=
  l.foldr insertSorted []

/-- Distinct keys of a multiset of strings, in first-occurrence order: the key
set of a Go map built by repeated insertion. -/
def dedupStrings (l : List String) : List String :=
  l.foldl insertSet []

/-! ### Identifier Normalizer (`naming.go`) -/

/-- Uppercase a string character-wise (`strings.ToUpper`, ASCII fragment). -/
def strUpper (s : String) : String := ⟨s.data.map Char.toUpper⟩

/-- Explicit word separators recognised by `splitWords`. -/
def isSep (c : Char) : Bool := c == '_' || c == '-' || c == ' ' || c == '.'

/-- One step of the `splitWords` scan.  The accumulator carries the finished
words, the current word (in order), and the previous character of the input
(separators included), mirroring `prev := rune(s[i-1])`. -/
def splitWordsStep : (List String × List Char × Option Char) → Char →
    (List String × List Char × Option Char) :=
  fun acc c =>
    let words := acc.1
    let current := acc.2.1
    let prev := acc.2.2
    if isSep c then
      (if current.isEmpty then words else words ++ [⟨current⟩], [], some c)
    else
      let boundary := c.isUpper &&
        (match prev with
         | some p => p.isLower || p.isDigit
         | none => false)
      if boundary then
        ((if current.isEmpty then words else words ++ [⟨current⟩]), [c], some c)
      else
        (words, current ++ [c], some c)

/-- Word splitting of `naming.go`: split on `_ - space .` and on a
lower-or-digit to upper transition. -/
def splitWords (s : String) : List String :=
  let acc := s.data.foldl splitWordsStep ([], [], none)
  if acc.2.1.isEmpty then acc.1 else acc.1 ++ [⟨acc.2.1⟩]

/-- Capitalize: first character upper, rest lower. -/
def capitalize (s : String) : String :=
  match s.data with
  | [] => ""
  | c :: cs => ⟨c.toUpper :: cs.map Char.toLower⟩

/-- Initialism table of `naming.go` (the built-in entries; no additional
initialisms are registered in the runs the claims describe). -/
def commonInitialisms : List String :=
  ["API", "ASCII", "CPU", "CSS", "DNS", "EOF", "GUID", "HTML", "HTTP", "HTTPS",
   "ID", "IP", "JSON", "LHS", "QPS", "RAM", "RHS", "RPC", "SLA", "SMTP", "SQL",
   "SSH", "TCP", "TLS", "TTL", "UDP", "UI", "UID", "UUID", "URI", "URL",
   "UTF8", "VM", "XML", "XMPP", "XSRF", "XSS", "CVV"]

/-- PascalCase of `naming.go`: each word capitalized, initialisms upper-cased
verbatim. -/
def PascalCase (s : String) : String :=
  (splitWords s).foldl
    (fun acc w =>
      let upper := strUpper w
      if commonInitialisms.contains upper then acc ++ upper else acc ++ capitalize w)
    ""

/-! ### Enum Naming Registry (`registry.go`) -/

/-- EnumUsage records where an enum is used in the spec. -/
structure EnumUsage where
  fieldName : String
  parentName : String
  values : List String
  valuesKey : String
deriving DecidableEq, Repr

/-- Keep only the string-typed values (`toStringSlice`). -/
def toStringSlice (values : List JValue) : List String :=
  values.filterMap fun v =>
    match v with
    | .vStr s => some s
    | _ => none

/-- Canonical key of an enum value set: sorted values joined with `|`. -/
def canonicalKey (values : List String) : String :=
  String.intercalate "|" (sortStrings values)

/-- Collision suffix from the sorted values (`valueSuffix`). -/
def valueSuffix (values : List String) : String :=
  match sortStrings values with
  | [] => ""
  | [a] => PascalCase a
  | a :: b :: _ => PascalCase a ++ PascalCase b

/-- A declaration emitted by one resolver session (`ResolvedType`). -/
structure UnionVariant' where
  name : String
  typeName : String
  discValue : String
  schema : Schema

structure ResolvedType where
  name : String
  schema : Schema
  isUnion : Bool
  isAllOf : Bool
  isEnum : Bool
  discriminator : Option Discriminator
  variants : List UnionVariant'

/-- Cross-session naming authority (`EnumRegistry`). -/
structure EnumRegistry where
  usages : List EnumUsage
  valueToName : List (String × String)
  nameToValues : List (String × String)
  generatedTypes : List (String × ResolvedType)

def EnumRegistry.new : EnumRegistry :=
  { usages := [], valueToName := [], nameToValues := [], generatedTypes := [] }

/-- CollectEnum records an enum usage for later name resolution. -/
def EnumRegistry.collectEnum (r : EnumRegistry) (fieldName parentName : String)
    (values : List JValue) : EnumRegistry :=
  let strs := toStringSlice values
  { r with usages := r.usages ++
      [{ fieldName := fieldName, parentName := parentName, values := strs,
         valuesKey := canonicalKey strs }] }

/-- Occurrence counts of the field names of a usage group, as the assoc-list
content of the Go `fieldCounts` map (first-occurrence key order). -/
def fieldCounts (usages : List EnumUsage) : List (String × Nat) :=
  usages.foldl (fun m u => aset m u.fieldName ((alookup m u.fieldName).getD 0 + 1)) []

/-- One comparison step of the best-field scan: `count > bestCount ||
(count == bestCount && field < bestField)`. -/
def beats (p best : String × Nat) : Bool :=
  p.2 > best.2 || (p.2 == best.2 && strLt p.1 best.1)

/-- Fold of the best-field scan from a given starting candidate. -/
def bestFold (counts : List (String × Nat)) (b₀ : String × Nat) : String × Nat :=
  counts.foldl (fun best p => if beats p best then p else best) b₀

/-- Scan for the most frequent field name with lexicographic tie-break,
starting from the Go zero values `("", 0)`. -/
def bestFieldOf (counts : List (String × Nat)) : String :=
  (bestFold counts ("", 0)).1

/-- Name of one canonical-key group (`determineName`); reads the bindings
accumulated so far for collision detection. -/
def EnumRegistry.determineName (r : EnumRegistry) (usages : List EnumUsage)
    (valuesKey : String) : String :=
  let baseName := PascalCase (bestFieldOf (fieldCounts usages))
  match alookup r.nameToValues baseName with
  | some existingKey =>
      if existingKey ≠ valuesKey then
        baseName ++ valueSuffix ((usages.head?.map (·.values)).getD [])
      else baseName
  | none => baseName

/-- ResolveNames processes all collected usages and assigns canonical names.
Groups are visited in ascending canonical-key order (`sort.Strings(keys)`). -/
def EnumRegistry.resolveNames (r : EnumRegistry) : EnumRegistry :=
  let keys := sortStrings (dedupStrings (r.usages.map (·.valuesKey)))
  keys.foldl
    (fun acc valuesKey =>
      let group := acc.usages.filter (fun u => u.valuesKey = valuesKey)
      let name := acc.determineName group valuesKey
      { acc with valueToName := aset acc.valueToName valuesKey name,
                 nameToValues := aset acc.nameToValues name valuesKey })
    r

/-- GetCanonicalName returns the predetermined name for enum values. -/
def EnumRegistry.getCanonicalName (r : EnumRegistry) (values : List JValue) :
    Option String :=
  alookup r.valueToName (canonicalKey (toStringSlice values))

/-- MarkGenerated records that a type has been generated. -/
def EnumRegistry.markGenerated (r : EnumRegistry) (name : String)
    (rt : ResolvedType) : EnumRegistry :=
  { r with generatedTypes := aset r.generatedTypes name rt }

/-- IsGenerated checks if a type has already been generated. -/
def EnumRegistry.isGenerated (r : EnumRegistry) (name : String) : Bool :=
  (alookup r.generatedTypes name).isSome

/-- GetGeneratedType returns the generated type if it exists. -/
def EnumRegistry.getGeneratedType (r : EnumRegistry) (name : String) :
    Option ResolvedType :=
  alookup r.generatedTypes name

/-! ### Type Resolver (`types.go`) -/

/-- Configuration consumed by the resolver (`config.TypesConfig`, the fields
`types.go` reads). -/
structure TypesConfig where
  uuidPackage : String
  allOfStrategy : String

/-- Per-session fixed capabilities of a `TypeResolver`: configuration, import
remapping and the schema-lookup capability.  The Go fields may be nil. -/
structure ResolverCtx where
  cfg : Option TypesConfig
  importMapping : List (String × String)
  schemaLookup : Option (String → Option Schema)

/-- Per-session mutable state of a `TypeResolver`, plus the shared registry. -/
structure ResolverState where
  nestedTypes : List ResolvedType
  seen : List String
  enumValues : List (String × String)
  mappedImports : List String
  registry : Option EnumRegistry

/-- A fresh resolver session sharing the given registry
(`NewTypeResolverWithRegistry`). -/
def freshSession (reg : EnumRegistry) : ResolverState :=
  { nestedTypes := [], seen := [], enumValues := [], mappedImports := [],
    registry := some reg }

/-- Character walk of `splitRef`: accumulate runs between `/`, dropping empty
segments, exactly the Go loop. -/
def splitRefGo : List Char → List Char → List String
  | [], current => if current.isEmpty then [] else [⟨current⟩]
  | c :: cs, current =>
      if c = '/' then
        if current.isEmpty then splitRefGo cs []
        else (⟨current⟩ : String) :: splitRefGo cs []
      else splitRefGo cs (current ++ [c])

/-- Split a `$ref` on `/`, dropping empty segments (`splitRef`). -/
def splitRef (ref : String) : List String :=
  splitRefGo ref.data []

/-- Last path segment of a reference, PascalCased (`refToTypeName`);
the guard is Go's `len(ref) > 0 && ref[0] == '#'`. -/
def refToTypeName (ref : String) : String :=
  match ref.data with
  | c :: _ =>
      if c = '#' then
        match (splitRef ref).getLast? with
        | some last => PascalCase last
        | none => "any"
      else "any"
  | [] => "any"

/-- Package name: last element of an import path (`packageName`). -/
def packageName (importPath : String) : String :=
  match (splitRef ("/" ++ importPath)).getLast? with
  | some last => last
  | none => importPath

def goIntegerType (format : String) : String :=
  if format = "int32" then "int32"
  else if format = "int64" then "int64"
  else "int"

def goNumberType (format : String) : String :=
  if format = "float" then "float32"
  else if format = "double" then "float64"
  else "float64"

/-- UUID representation selected by the configuration (`uuidType`). -/
def uuidType (ctx : ResolverCtx) : String :=
  match ctx.cfg with
  | none => "string"
  | some c =>
      if c.uuidPackage = "google" then "uuid.UUID"
      else if c.uuidPackage = "gofrs" then "uuid.UUID"
      else "string"

/-- String-format table of the resolver (`TypeResolver.goStringType`). -/
def goStringTypeR (ctx : ResolverCtx) (format : String) : String :=
  if format = "date-time" || format = "date" then "time.Time"
  else if format = "uuid" then uuidType ctx
  else if format = "uri" then "string"
  else if format = "byte" || format = "binary" then "[]byte"
  else "string"

/-- Canonical key used by the registry-less enum fallback (`enumValuesKey`). -/
def enumValuesKey (values : List JValue) : String :=
  String.intercalate "|" (sortStrings (toStringSlice values))

/-- Declaration record with only name and schema set (object declarations). -/
def objDecl (name : String) (schema : Schema) : ResolvedType :=
  { name := name, schema := schema, isUnion := false, isAllOf := false,
    isEnum := false, discriminator := none, variants := [] }

/-- Declaration record for an enum (`ResolvedType{..., IsEnum: true}`). -/
def enumDecl (name : String) (schema : Schema) : ResolvedType :=
  { name := name, schema := schema, isUnion := false, isAllOf := false,
    isEnum := true, discriminator := none, variants := [] }

/-- Enum resolution (`TypeResolver.resolveEnum`): registry-backed stable naming
with a session-local fallback.  Touches no other resolver machinery, so it is
not part of the mutual recursion. -/
def resolveEnum (st : ResolverState) (sc : Schema) (parentName fieldName : String) :
    String × ResolverState :=
  match st.registry with
  | some reg =>
      let name :=
        match reg.getCanonicalName sc.enum with
        | some n => n
        | none => PascalCase fieldName
      if reg.isGenerated name then (name, st)
      else if name ∈ st.seen then (name, st)
      else
        let rt := enumDecl name (sc.setName name)
        (name, { st with seen := name :: st.seen,
                         nestedTypes := st.nestedTypes ++ [rt],
                         registry := some (reg.markGenerated name rt) })
  | none =>
      let enumKey := enumValuesKey sc.enum
      match alookup st.enumValues enumKey with
      | some existingName => (existingName, st)
      | none =>
          let nestedName := parentName ++ PascalCase fieldName
          if nestedName ∈ st.seen then (nestedName, st)
          else
            let rt := enumDecl nestedName (sc.setName nestedName)
            (nestedName, { st with seen := nestedName :: st.seen,
                                   enumValues := aset st.enumValues enumKey nestedName,
                                   nestedTypes := st.nestedTypes ++ [rt] })

/-- First discriminator-mapping entry matching a variant, in the given entry
order (`for discVal, ref := range Mapping { if variant.Ref == ref ||
refToTypeName(ref) == v.TypeName { ...; break } }`). -/
def findDiscMatch (mapping : List (String × String)) (variantRef typeName : String) :
    Option String :=
  (mapping.find? (fun e => variantRef == e.2 || refToTypeName e.2 == typeName)).map (·.1)

/-- Merged object schema assembled by the allOf strategies: type `object`,
given description, properties, required set and retained reference members,
everything else the Go zero value. -/
def mkMerged (description : String) (properties : List (String × Option Schema))
    (required : List String) (allOf : List Schema) : Schema :=
  .mk "" description .tObject "" properties required none [] allOf [] [] none "" none

/-- Accumulator of `flattenAllOfSchemas`: the merged property list, required
set, description, and the `seenProps` dedup set. -/
structure FlattenAcc where
  props : List (String × Option Schema)
  req : List String
  desc : String
  seenProps : List String

mutual

/-- ResolveType resolves a schema to a Go type name, collecting nested types
(`TypeResolver.ResolveType`).  A nil node degrades to `"any"`. -/
def resolveType : Nat → ResolverCtx → ResolverState → Option Schema → String →
    String → String × ResolverState
  | 0, _, st, _, _, _ => ("any", st)
  | _ + 1, _, st, none, _, _ => ("any", st)
  | fuel + 1, ctx, st, some sc, parentName, fieldName =>
    if sc.ref ≠ "" then
      match alookup ctx.importMapping sc.ref with
      | some pkgPath =>
          (packageName pkgPath ++ "." ++ refToTypeName sc.ref,
           { st with mappedImports := insertSet st.mappedImports pkgPath })
      | none => (refToTypeName sc.ref, st)
    else if sc.oneOf.length > 0 || sc.anyOf.length > 0 then
      resolveUnion fuel ctx st sc parentName fieldName
    else if sc.allOf.length > 0 then
      resolveAllOf fuel ctx st sc parentName fieldName
    else if sc.enum.length > 0 && parentName ≠ "" then
      resolveEnum st sc parentName fieldName
    else
      match sc.type with
      | .tString => (goStringTypeR ctx sc.format, st)
      | .tInteger => (goIntegerType sc.format, st)
      | .tNumber => (goNumberType sc.format, st)
      | .tBoolean => ("bool", st)
      | .tArray =>
          let r := resolveType fuel ctx st sc.items parentName (fieldName ++ "Item")
          ("[]" ++ r.1, r.2)
      | .tObject => resolveObject fuel ctx st sc parentName fieldName
      | _ => ("any", st)

/-- Object resolution (`TypeResolver.resolveObject`): map types for
additional-properties schemas, a synthesized named declaration otherwise. -/
def resolveObject : Nat → ResolverCtx → ResolverState → Schema → String →
    String → String × ResolverState
  | 0, _, st, _, _, _ => ("any", st)
  | fuel + 1, ctx, st, sc, parentName, fieldName =>
    match sc.additionalProperties with
    | some ap =>
        let r := resolveType fuel ctx st (some ap) parentName (fieldName ++ "Value")
        ("map[string]" ++ r.1, r.2)
    | none =>
        if sc.properties.isEmpty then ("map[string]any", st)
        else
          let nestedName := parentName ++ PascalCase fieldName
          if nestedName ∈ st.seen then (nestedName, st)
          else
            let st1 : ResolverState := { st with seen := nestedName :: st.seen }
            let st2 := resolveProps fuel ctx st1 sc.properties nestedName
            (nestedName,
             { st2 with nestedTypes :=
                 st2.nestedTypes ++ [objDecl nestedName (sc.setName nestedName)] })

/-- Resolve every property of an object in order, for its state effects. -/
def resolveProps : Nat → ResolverCtx → ResolverState →
    List (String × Option Schema) → String → ResolverState
  | 0, _, st, _, _ => st
  | _ + 1, _, st, [], _ => st
  | fuel + 1, ctx, st, p :: rest, nestedName =>
    let st1 := (resolveType fuel ctx st p.2 nestedName p.1).2
    resolveProps fuel ctx st1 rest nestedName

/-- Union resolution (`TypeResolver.resolveUnion`). -/
def resolveUnion : Nat → ResolverCtx → ResolverState → Schema → String →
    String → String × ResolverState
  | 0, _, st, _, _, _ => ("any", st)
  | fuel + 1, ctx, st, sc, parentName, fieldName =>
    let schemas := if sc.oneOf.length > 0 then sc.oneOf else sc.anyOf
    let nestedName := parentName ++ PascalCase fieldName
    if nestedName ∈ st.seen then (nestedName, st)
    else
      let st1 : ResolverState := { st with seen := nestedName :: st.seen }
      let r := resolveVariants fuel ctx st1 schemas nestedName sc.discriminator
      (nestedName,
       { r.2 with nestedTypes := r.2.nestedTypes ++
           [{ name := nestedName, schema := sc, isUnion := true, isAllOf := false,
              isEnum := false, discriminator := sc.discriminator, variants := r.1 }] })

/-- Resolve the variants of a union in order, binding discriminator literals
by first matching mapping entry. -/
def resolveVariants : Nat → ResolverCtx → ResolverState → List Schema → String →
    Option Discriminator → List UnionVariant' × ResolverState
  | 0, _, st, _, _, _ => ([], st)
  | _ + 1, _, st, [], _, _ => ([], st)
  | fuel + 1, ctx, st, v :: rest, nestedName, disc =>
    let r :=
      if v.ref ≠ "" then (refToTypeName v.ref, st)
      else resolveType fuel ctx st (some v) nestedName "Variant"
    let discValue :=
      match disc with
      | some d => (findDiscMatch d.mapping v.ref r.1).getD ""
      | none => ""
    let variant : UnionVariant' :=
      { name := r.1, typeName := r.1, discValue := discValue, schema := v }
    let rec' := resolveVariants fuel ctx r.2 rest nestedName disc
    (variant :: rec'.1, rec'.2)

/-- Composition resolution (`TypeResolver.resolveAllOf`): embed (default) or
flatten strategy. -/
def resolveAllOf : Nat → ResolverCtx → ResolverState → Schema → String →
    String → String × ResolverState
  | 0, _, st, _, _, _ => ("any", st)
  | fuel + 1, ctx, st, sc, parentName, fieldName =>
    let nestedName := parentName ++ PascalCase fieldName
    if nestedName ∈ st.seen then (nestedName, st)
    else
      let st1 : ResolverState := { st with seen := nestedName :: st.seen }
      let shouldFlatten :=
        (match ctx.cfg with
         | some c => c.allOfStrategy = "flatten"
         | none => false) && ctx.schemaLookup.isSome
      if shouldFlatten then
        let r := flattenAllOf fuel ctx st1 sc.allOf nestedName
        (nestedName,
         { r.2 with nestedTypes := r.2.nestedTypes ++
             [{ name := nestedName, schema := r.1.setName nestedName,
                isUnion := false, isAllOf := false, isEnum := false,
                discriminator := none, variants := [] }] })
      else
        let allRefs := sc.allOf.all (fun sub => sub.ref ≠ "")
        if allRefs then
          let resolvedSchema := sc.setName nestedName
          (nestedName,
           { st1 with nestedTypes := st1.nestedTypes ++
               [{ name := nestedName, schema := resolvedSchema,
                  isUnion := false, isAllOf := resolvedSchema.allOf.length > 0,
                  isEnum := false, discriminator := none, variants := [] }] })
        else
          let r := mergeAllOfGo fuel ctx st1 sc.allOf nestedName [] [] [] ""
          let resolvedSchema := r.1.setName nestedName
          (nestedName,
           { r.2 with nestedTypes := r.2.nestedTypes ++
               [{ name := nestedName, schema := resolvedSchema,
                  isUnion := false, isAllOf := resolvedSchema.allOf.length > 0,
                  isEnum := false, discriminator := none, variants := [] }] })

/-- Embed-strategy merge (`TypeResolver.mergeAllOfSchemas`): reference members
are retained for embedding, inline members contribute every property (no
duplicate elimination) and their required names; the parent name is the
caller's `parentName` argument. -/
def mergeAllOfGo : Nat → ResolverCtx → ResolverState → List Schema → String →
    List Schema → List (String × Option Schema) → List String → String →
    Schema × ResolverState
  | 0, _, st, _, _, accAllOf, accProps, accReq, accDesc =>
    (mkMerged accDesc accProps accReq accAllOf, st)
  | _ + 1, _, st, [], _, accAllOf, accProps, accReq, accDesc =>
    (mkMerged accDesc accProps accReq accAllOf, st)
  | fuel + 1, ctx, st, s :: rest, parentName, accAllOf, accProps, accReq, accDesc =>
    if s.ref ≠ "" then
      mergeAllOfGo fuel ctx st rest parentName (accAllOf ++ [s]) accProps accReq accDesc
    else
      let st1 := resolveProps fuel ctx st s.properties parentName
      let accProps1 := accProps ++ s.properties
      let accReq1 := s.required.foldl insertSet accReq
      let accDesc1 := if s.description ≠ "" && accDesc = "" then s.description else accDesc
      mergeAllOfGo fuel ctx st1 rest parentName accAllOf accProps1 accReq1 accDesc1

/-- Flatten-strategy merge (`TypeResolver.flattenAllOfSchemas`): every member,
references included, is expanded into one flat object with first-occurrence
property dedup. -/
def flattenAllOf : Nat → ResolverCtx → ResolverState → List Schema → String →
    Schema × ResolverState
  | 0, _, st, _, _ => (mkMerged "" [] [] [], st)
  | fuel + 1, ctx, st, schemas, parentName =>
    let r := flattenGo fuel ctx st schemas parentName
      { props := [], req := [], desc := "", seenProps := [] }
    (mkMerged r.1.desc r.1.props r.1.req [], r.2)

/-- Worker of the flatten strategy: the closure `flatten` of the source, with
the shared `merged`, `requiredMap` and `seenProps` threaded explicitly. -/
def flattenGo : Nat → ResolverCtx → ResolverState → List Schema → String →
    FlattenAcc → FlattenAcc × ResolverState
  | 0, _, st, _, _, acc => (acc, st)
  | _ + 1, _, st, [], _, acc => (acc, st)
  | fuel + 1, ctx, st, s :: rest, parentName, acc =>
    if s.ref ≠ "" then
      match ctx.schemaLookup.bind (fun f => f s.ref) with
      | none => flattenGo fuel ctx st rest parentName acc
      | some refSchema =>
          let r0 :=
            if refSchema.allOf.length > 0 then
              flattenGo fuel ctx st refSchema.allOf parentName acc
            else (acc, st)
          let r1 := flattenProps fuel ctx r0.2 refSchema.properties parentName r0.1
          let acc2 : FlattenAcc :=
            { r1.1 with
              req := refSchema.required.foldl insertSet r1.1.req,
              desc := if refSchema.description ≠ "" && r1.1.desc = "" then
                        refSchema.description else r1.1.desc }
          flattenGo fuel ctx r1.2 rest parentName acc2
    else
      let r1 := flattenProps fuel ctx st s.properties parentName acc
      let acc2 : FlattenAcc :=
        { r1.1 with
          req := s.required.foldl insertSet r1.1.req,
          desc := if s.description ≠ "" && r1.1.desc = "" then s.description
                  else r1.1.desc }
      flattenGo fuel ctx r1.2 rest parentName acc2

/-- Property walk of the flatten strategy: first occurrence of a name wins,
later occurrences are skipped without resolution. -/
def flattenProps : Nat → ResolverCtx → ResolverState →
    List (String × Option Schema) → String → FlattenAcc →
    FlattenAcc × ResolverState
  | 0, _, st, _, _, acc => (acc, st)
  | _ + 1, _, st, [], _, acc => (acc, st)
  | fuel + 1, ctx, st, p :: rest, parentName, acc =>
    if p.1 ∈ acc.seenProps then flattenProps fuel ctx st rest parentName acc
    else
      let st1 := (resolveType fuel ctx st p.2 parentName p.1).2
      flattenProps fuel ctx st1 rest parentName
        { acc with props := acc.props ++ [p], seenProps := p.1 :: acc.seenProps }

end

/-! ### Fixtures and specification-side notions used by the theorems -/

/-- A bare string schema. -/
def strSchema : Schema := .mk "" "" .tString "" [] [] none [] [] [] [] none "" none

/-- A bare integer schema. -/
def intSchema : Schema := .mk "" "" .tInteger "" [] [] none [] [] [] [] none "" none

/-- A bare reference schema. -/
def refS (r : String) : Schema := .mk "" "" .tNone "" [] [] none [] [] [] [] none r none

/-- An inline object schema with the given properties and required names. -/
def mkObj (props : List (String × Option Schema)) (req : List String) : Schema :=
  .mk "" "" .tObject "" props req none [] [] [] [] none "" none

/-- A string-typed inline enum schema with the given literal values. -/
def mkEnum (values : List JValue) : Schema :=
  .mk "" "" .tString "" [] [] none values [] [] [] none "" none

/-- An allOf composition node with the given members. -/
def mkAllOf (members : List Schema) : Schema :=
  .mk "" "" .tNone "" [] [] none [] members [] [] none "" none

/-- A oneOf union node with the given members and discriminator. -/
def mkOneOf (members : List Schema) (disc : Option Discriminator) : Schema :=
  .mk "" "" .tNone "" [] [] none [] [] members [] disc "" none

/-- A resolver context with no configuration and no capabilities. -/
def noCtx : ResolverCtx := { cfg := none, importMapping := [], schemaLookup := none }

/-- A resolver context selecting the flatten strategy with the given lookup. -/
def flattenCtx (lk : String → Option Schema) : ResolverCtx :=
  { cfg := some { uuidPackage := "", allOfStrategy := "flatten" },
    importMapping := [], schemaLookup := some lk }

/-- A fresh registry-less session (`NewTypeResolver`). -/
def emptyState : ResolverState :=
  { nestedTypes := [], seen := [], enumValues := [], mappedImports := [],
    registry := none }

/-- Number of usages of one field name within a usage group (specification-side
count that `fieldCounts` must realise). -/
def countField (usages : List EnumUsage) (f : String) : Nat :=
  (usages.filter (fun u => u.fieldName = f)).length

/-- Naming bindings of an optional registry, the data `ResolveNames` freezes. -/
def regBindings (o : Option EnumRegistry) :
    Option (List (String × String)) × Option (List (String × String)) :=
  (o.map (·.valueToName), o.map (·.nameToValues))

/-- State evolution invariant of one resolver step: the seen set only grows and
the frozen naming bindings of the shared registry never change. -/
def Evolves (st st' : ResolverState) : Prop :=
  (∀ x, x ∈ st.seen → x ∈ st'.seen) ∧ regBindings st'.registry = regBindings st.registry

/-- Registry of the cross-pass example: values `{pending, active}` collected
once under field `status` (parent `A`) and once under field `state`
(parent `B`), then frozen. -/
def regC1 : EnumRegistry :=
  ((EnumRegistry.new.collectEnum "status" "A" [.vStr "pending", .vStr "active"]).collectEnum
    "state" "B" [.vStr "pending", .vStr "active"]).resolveNames

/-- Registry of the collision example: field `priority` once with values
`{low, high}` and once with values `{slow, fast}`, then frozen. -/
def regC2 : EnumRegistry :=
  ((EnumRegistry.new.collectEnum "priority" "P1" [.vStr "low", .vStr "high"]).collectEnum
    "priority" "P2" [.vStr "slow", .vStr "fast"]).resolveNames

/-- The enum schema `{pending, active}`. -/
def statusSchema : Schema := mkEnum [.vStr "pending", .vStr "active"]

/-- allOf with two inline members that both declare property `x`. -/
def dupAllOf : Schema :=
  mkAllOf [mkObj [("x", some strSchema)] ["a"], mkObj [("x", some intSchema)] ["b"]]

def refA : Schema := refS "#/components/schemas/A"

def refB : Schema := refS "#/components/schemas/B"

/-- allOf whose members are the bare references `A` and `B`. -/
def refsAllOf : Schema := mkAllOf [refA, refB]

/-- Schema lookup resolving `A` to `{x: string}` and `B` to `{y: string}`. -/
def lookupAB : String → Option Schema := fun r =>
  if r = "#/components/schemas/A" then some (mkObj [("x", some strSchema)] ["x"])
  else if r = "#/components/schemas/B" then some (mkObj [("y", some strSchema)] ["y"])
  else none

def refCat : Schema := refS "#/components/schemas/Cat"

def refDog : Schema := refS "#/components/schemas/Dog"

/-- Union `oneOf = [RefCat, RefDog]` with mapping `{"cat": RefCat}`. -/
def catDogUnion : Schema :=
  mkOneOf [refCat, refDog]
    (some { propertyName := "kind", mapping := [("cat", "#/components/schemas/Cat")] })

/-- Union `oneOf = [RefCat]` with a two-entry mapping whose targets coincide,
presented in a given iteration order. -/
def catUnionWith (m : List (String × String)) : Schema :=
  mkOneOf [refCat] (some { propertyName := "kind", mapping := m })

/-! ### Helper lemmas -/

theorem alookup_aset_self {α : Type} (m : List (String × α)) (k : String) (v : α) :
    alookup (aset m k v) k = some v := by
  induction m with
  | nil => simp [aset, alookup]
  | cons p rest ih =>
      obtain ⟨k', v'⟩ := p
      by_cases h : k' = k
      · simp [aset, h, alookup]
      · simp [aset, h, alookup, ih]

theorem alookup_aset_ne {α : Type} (m : List (String × α)) {k k' : String} (v : α)
    (h : k' ≠ k) : alookup (aset m k' v) k = alookup m k := by
  induction m with
  | nil => simp [aset, alookup, h]
  | cons p rest ih =>
      obtain ⟨k₀, v₀⟩ := p
      by_cases h₀ : k₀ = k'
      · subst h₀
        simp [aset, alookup, h]
      · simp [aset, h₀, alookup, ih]

theorem mem_of_alookup_eq_some {α : Type} {m : List (String × α)} {k : String} {v : α}
    (h : alookup m k = some v) : (k, v) ∈ m := by
  induction m with
  | nil => simp [alookup] at h
  | cons p rest ih =>
      obtain ⟨k₀, v₀⟩ := p
      by_cases h₀ : k₀ = k
      · subst h₀
        simp [alookup] at h
        simp [h]
      · simp [alookup, h₀] at h
        exact List.mem_cons_of_mem _ (ih h)

theorem mem_aset {α : Type} {m : List (String × α)} {p : String × α} {k : String} {v : α}
    (h : p ∈ aset m k v) : p = (k, v) ∨ p ∈ m := by
  induction m with
  | nil => simpa [aset] using h
  | cons q rest ih =>
      obtain ⟨k₀, v₀⟩ := q
      by_cases h₀ : k₀ = k
      · simp [aset, h₀] at h
        rcases h with h | h
        · left; simp [h]
        · right; exact List.mem_cons_of_mem _ h
      · simp [aset, h₀] at h
        rcases h with h | h
        · right; simp [h]
        · rcases ih h with h' | h'
          · left; exact h'
          · right; exact List.mem_cons_of_mem _ h'

theorem aset_keys_nodup {α : Type} {m : List (String × α)} (k : String) (v : α)
    (h : (m.map Prod.fst).Nodup) : ((aset m k v).map Prod.fst).Nodup := by
  induction m with
  | nil => simp [aset]
  | cons q rest ih =>
      obtain ⟨k₀, v₀⟩ := q
      simp at h
      by_cases h₀ : k₀ = k
      · subst h₀
        simpa [aset] using h
      · have tail := ih h.2
        simp [aset, h₀]
        refine ⟨?_, tail⟩
        intro x hx
        rcases mem_aset hx with h' | h'
        · have : k₀ = k := by simpa using congrArg Prod.fst h'
          exact absurd this h₀
        · exact h.1 x h' 

theorem alookup_of_mem_nodup {α : Type} {m : List (String × α)} {k : String} {v : α}
    (hn : (m.map Prod.fst).Nodup) (h : (k, v) ∈ m) : alookup m k = some v := by
  induction m with
  | nil => simp at h
  | cons q rest ih =>
      obtain ⟨k₀, v₀⟩ := q
      simp at hn
      rcases List.mem_cons.mp h with h' | h'
      · obtain ⟨h1, h2⟩ : k = k₀ ∧ v = v₀ := by simpa using h'
        subst h1
        simp [alookup, h2]
      · have hk : k₀ ≠ k := by
          intro hk
          exact hn.1 v (by rw [hk]; exact h')
        simp [alookup, hk]
        exact ih hn.2 h'

theorem mem_insertSet {l : List String} {x y : String} :
    y ∈ insertSet l x ↔ y ∈ l ∨ y = x := by
  unfold insertSet
  by_cases h : x ∈ l
  · simp [h]
    intro hy
    exact hy.symm ▸ h
  · simp [h]

theorem insertSet_of_mem {l : List String} {x : String} (h : x ∈ l) :
    insertSet l x = l := by
  simp [insertSet, h]

theorem mem_foldl_insertSet {l acc : List String} {x : String} :
    x ∈ l.foldl insertSet acc ↔ x ∈ acc ∨ x ∈ l := by
  induction l generalizing acc with
  | nil => simp
  | cons y ys ih =>
      simp only [List.foldl_cons, ih, mem_insertSet]
      constructor
      · rintro ((h | h) | h)
        · exact Or.inl h
        · exact Or.inr (by simp [h])
        · exact Or.inr (List.mem_cons_of_mem _ h)
      · rintro (h | h)
        · exact Or.inl (Or.inl h)
        · rcases List.mem_cons.mp h with h | h
          · exact Or.inl (Or.inr h)
          · exact Or.inr h

theorem mem_dedupStrings {l : List String} {x : String} :
    x ∈ dedupStrings l ↔ x ∈ l := by
  unfold dedupStrings
  simp [mem_foldl_insertSet]

theorem mem_insertSorted {l : List String} {x y : String} :
    y ∈ insertSorted x l ↔ y = x ∨ y ∈ l := by
  induction l with
  | nil => simp [insertSorted]
  | cons z zs ih =>
      unfold insertSorted
      by_cases h : strLe x z = true
      · simp [h]
      · simp [h, ih]
        tauto

theorem mem_sortStrings {l : List String} {x : String} :
    x ∈ sortStrings l ↔ x ∈ l := by
  unfold sortStrings
  induction l with
  | nil => simp
  | cons y ys ih =>
      simp [List.foldr_cons, mem_insertSorted, ih]

theorem charListLt_irrefl (l : List Char) : charListLt l l = false := by
  induction l with
  | nil => rfl
  | cons c cs ih => simp [charListLt, ih]

theorem charListLt_trans {a b c : List Char} (h₁ : charListLt a b = true)
    (h₂ : charListLt b c = true) : charListLt a c = true := by
  induction a generalizing b c with
  | nil =>
      cases b with
      | nil => simp [charListLt] at h₁
      | cons y ys =>
          cases c with
          | nil => simp [charListLt] at h₂
          | cons z zs => rfl
  | cons x xs ih =>
      cases b with
      | nil => simp [charListLt] at h₁
      | cons y ys =>
          cases c with
          | nil => simp [charListLt] at h₂
          | cons z zs =>
              simp only [charListLt] at h₁ h₂ ⊢
              rcases lt_trichotomy x y with hxy | hxy | hxy
              · rcases lt_trichotomy y z with hyz | hyz | hyz
                · simp [lt_trans hxy hyz]
                · subst hyz
                  simp [hxy]
                · simp [hyz, not_lt_of_gt hyz] at h₂
              · subst hxy
                rcases lt_trichotomy x z with hxz | hxz | hxz
                · simp [hxz]
                · subst hxz
                  simp [lt_irrefl] at h₁ h₂ ⊢
                  exact ih h₁ h₂
                · simp [hxz, not_lt_of_gt hxz] at h₂
              · simp [hxy, not_lt_of_gt hxy] at h₁

theorem charListLt_connex {a b : List Char} (h₁ : charListLt a b = false)
    (h₂ : charListLt b a = false) : a = b := by
  induction a generalizing b with
  | nil =>
      cases b with
      | nil => rfl
      | cons y ys => simp [charListLt] at h₁
  | cons x xs ih =>
      cases b with
      | nil => simp [charListLt] at h₂
      | cons y ys =>
          simp only [charListLt] at h₁ h₂
          rcases lt_trichotomy x y with hxy | hxy | hxy
          · simp [hxy] at h₁
          · subst hxy
            simp [lt_irrefl] at h₁ h₂
            rw [ih h₁ h₂]
          · simp [hxy] at h₂

theorem strLt_irrefl (a : String) : strLt a a = false := by
  simp [strLt, charListLt_irrefl]

theorem strLt_trans {a b c : String} (h₁ : strLt a b = true) (h₂ : strLt b c = true) :
    strLt a c = true :=
  charListLt_trans h₁ h₂

theorem strLt_connex {a b : String} (h₁ : strLt a b = false) (h₂ : strLt b a = false) :
    a = b := by
  cases a with
  | mk da =>
      cases b with
      | mk db =>
          simp only [strLt] at h₁ h₂
          rw [charListLt_connex h₁ h₂]

theorem not_strLt_trans {a b c : String} (h₁ : strLt a b = false)
    (h₂ : strLt b c = false) : strLt a c = false := by
  by_contra h
  have hac : strLt a c = true := by
    cases hv : strLt a c
    · exact absurd hv h
    · rfl
  rcases hcb : strLt c b with _ | _
  · have : c = b := strLt_connex hcb h₂
    subst this
    rw [hac] at h₁
    exact Bool.noConfusion h₁
  · have : strLt a b = true := strLt_trans hac hcb
    rw [this] at h₁
    exact Bool.noConfusion h₁

theorem beats_irrefl (p : String × Nat) : beats p p = false := by
  simp [beats, strLt_irrefl]

theorem not_beats_trans {p q r : String × Nat} (h₁ : beats p q = false)
    (h₂ : beats q r = false) : beats p r = false := by
  simp only [beats, Bool.or_eq_false_iff, Bool.and_eq_false_iff,
    decide_eq_false_iff_not, not_lt, beq_eq_false_iff_ne, ne_eq] at h₁ h₂ ⊢
  obtain ⟨h₁c, h₁s⟩ := h₁
  obtain ⟨h₂c, h₂s⟩ := h₂
  refine ⟨le_trans h₁c h₂c, ?_⟩
  by_cases hpr : p.2 = r.2
  · have hq1 : p.2 = q.2 := le_antisymm h₁c (hpr ▸ h₂c)
    have hq2 : q.2 = r.2 := by omega
    right
    have hs₁ : strLt p.1 q.1 = false := by tauto
    have hs₂ : strLt q.1 r.1 = false := by tauto
    exact not_strLt_trans hs₁ hs₂
  · left
    exact hpr

theorem beats_asymm {p q : String × Nat} (h : beats p q = true) : beats q p = false := by
  simp only [beats, Bool.or_eq_true, Bool.and_eq_true, decide_eq_true_eq, beq_iff_eq,
    Bool.or_eq_false_iff, Bool.and_eq_false_iff, decide_eq_false_iff_not, not_lt,
    beq_eq_false_iff_ne, ne_eq] at h ⊢
  rcases h with h | ⟨he, hs⟩
  · exact ⟨le_of_lt h, Or.inl (by omega)⟩
  · refine ⟨le_of_eq he.symm, Or.inr ?_⟩
    rcases hv : strLt q.1 p.1 with _ | _
    · rfl
    · have h2 : strLt p.1 p.1 = true := strLt_trans hs hv
      rw [strLt_irrefl] at h2
      exact h2.symm

theorem bestFold_spec (counts : List (String × Nat)) (b₀ : String × Nat) :
    (bestFold counts b₀ = b₀ ∨ bestFold counts b₀ ∈ counts) ∧
    beats b₀ (bestFold counts b₀) = false ∧
    ∀ p ∈ counts, beats p (bestFold counts b₀) = false := by
  induction counts generalizing b₀ with
  | nil => simp [bestFold, beats_irrefl]
  | cons p ps ih =>
      simp only [bestFold, List.foldl_cons] at *
      by_cases hb : beats p b₀ = true
      · simp only [hb, if_true]
        obtain ⟨hmem, hstart, hall⟩ := ih p
        refine ⟨?_, ?_, ?_⟩
        · rcases hmem with h | h
          · right; simp [h]
          · right; exact List.mem_cons_of_mem _ h
        · exact not_beats_trans (beats_asymm hb) hstart
        · intro q hq
          rcases List.mem_cons.mp hq with h | h
          · rw [h]; exact hstart
          · exact hall q h
      · have hb' : beats p b₀ = false := by
          cases hv : beats p b₀
          · rfl
          · exact absurd hv hb
        simp only [hb', Bool.false_eq_true, if_false]
        obtain ⟨hmem, hstart, hall⟩ := ih b₀
        refine ⟨?_, hstart, ?_⟩
        · rcases hmem with h | h
          · left; exact h
          · right; exact List.mem_cons_of_mem _ h
        · intro q hq
          rcases List.mem_cons.mp hq with h | h
          · rw [h]; exact not_beats_trans hb' hstart
          · exact hall q h

theorem countField_cons (u : EnumUsage) (rest : List EnumUsage) (f : String) :
    countField (u :: rest) f = (if u.fieldName = f then 1 else 0) + countField rest f := by
  simp only [countField, List.filter_cons]
  split
  · simp_all
    omega
  · simp_all

theorem countField_pos_of_mem {us : List EnumUsage} {u : EnumUsage} (h : u ∈ us) :
    0 < countField us u.fieldName := by
  simp only [countField]
  have : u ∈ us.filter (fun v => v.fieldName = u.fieldName) :=
    List.mem_filter.mpr ⟨h, by simp⟩
  exact List.length_pos.mpr (fun he => by simp [he] at this)

theorem countField_pos_exists {us : List EnumUsage} {f : String}
    (h : 0 < countField us f) : ∃ u ∈ us, u.fieldName = f := by
  simp only [countField] at h
  obtain ⟨u, hu⟩ := List.exists_mem_of_length_pos h
  have := List.mem_filter.mp hu
  exact ⟨u, this.1, by simpa using this.2⟩

theorem fieldCounts_lookup_general (us : List EnumUsage)
    (acc : List (String × Nat)) (f : String) :
    (alookup (us.foldl (fun m u => aset m u.fieldName ((alookup m u.fieldName).getD 0 + 1)) acc) f).getD 0 =
      (alookup acc f).getD 0 + countField us f := by
  induction us generalizing acc with
  | nil => simp [countField]
  | cons u rest ih =>
      simp only [List.foldl_cons]
      rw [ih, countField_cons]
      by_cases h : u.fieldName = f
      · subst h
        rw [alookup_aset_self]
        simp
        omega
      · rw [alookup_aset_ne _ _ h]
        simp [h]

theorem fieldCounts_lookup (us : List EnumUsage) (f : String) :
    (alookup (fieldCounts us) f).getD 0 = countField us f := by
  have := fieldCounts_lookup_general us [] f
  simpa [fieldCounts, alookup] using this

theorem fieldCounts_entries_pos_general (us : List EnumUsage)
    (acc : List (String × Nat)) (hacc : ∀ p ∈ acc, 1 ≤ p.2) :
    ∀ p ∈ us.foldl (fun m u => aset m u.fieldName ((alookup m u.fieldName).getD 0 + 1)) acc,
      1 ≤ p.2 := by
  induction us generalizing acc with
  | nil => exact hacc
  | cons u rest ih =>
      simp only [List.foldl_cons]
      refine ih _ ?_
      intro p hp
      rcases mem_aset hp with h | h
      · rw [h]
        omega
      · exact hacc p h

theorem fieldCounts_entries_pos (us : List EnumUsage) :
    ∀ p ∈ fieldCounts us, 1 ≤ p.2 :=
  fieldCounts_entries_pos_general us [] (by simp)

theorem fieldCounts_keys_nodup_general (us : List EnumUsage)
    (acc : List (String × Nat)) (hacc : (acc.map Prod.fst).Nodup) :
    ((us.foldl (fun m u => aset m u.fieldName ((alookup m u.fieldName).getD 0 + 1)) acc).map Prod.fst).Nodup := by
  induction us generalizing acc with
  | nil => exact hacc
  | cons u rest ih =>
      simp only [List.foldl_cons]
      exact ih _ (aset_keys_nodup _ _ hacc)

theorem fieldCounts_keys_nodup (us : List EnumUsage) :
    ((fieldCounts us).map Prod.fst).Nodup :=
  fieldCounts_keys_nodup_general us [] (by simp)

theorem alookup_of_getD_pos {m : List (String × Nat)} {f : String} {c : Nat}
    (h : (alookup m f).getD 0 = c) (hc : 0 < c) : alookup m f = some c := by
  cases hv : alookup m f with
  | none => rw [hv] at h; simp at h; omega
  | some v => rw [hv] at h; simp at h; rw [h]

/-- The best-field scan computes a mode of the group's field-name multiset,
with the lexicographically smallest field name among the modes. -/
theorem bestField_is_mode (us : List EnumUsage) (hne : us ≠ []) :
    (∃ u ∈ us, u.fieldName = bestFieldOf (fieldCounts us)) ∧
    ∀ u ∈ us, countField us u.fieldName ≤ countField us (bestFieldOf (fieldCounts us)) ∧
      (countField us u.fieldName = countField us (bestFieldOf (fieldCounts us)) →
        strLt u.fieldName (bestFieldOf (fieldCounts us)) = false) := by
  obtain ⟨hmem, _, hall⟩ := bestFold_spec (fieldCounts us) ("", 0)
  have memCount : ∀ u ∈ us, (u.fieldName, countField us u.fieldName) ∈ fieldCounts us := by
    intro u hu
    exact mem_of_alookup_eq_some
      (alookup_of_getD_pos (fieldCounts_lookup us u.fieldName) (countField_pos_of_mem hu))
  have hr_mem : bestFold (fieldCounts us) ("", 0) ∈ fieldCounts us := by
    rcases hmem with h | h
    · obtain ⟨u, hu⟩ : ∃ u, u ∈ us := by
        cases us with
        | nil => exact absurd rfl hne
        | cons a l => exact ⟨a, by simp⟩
      have hb := hall _ (memCount u hu)
      rw [h] at hb
      simp only [beats, Bool.or_eq_false_iff, Bool.and_eq_false_iff,
        decide_eq_false_iff_not, not_lt] at hb
      have := countField_pos_of_mem hu
      omega
    · exact h
  have hr_count : countField us (bestFold (fieldCounts us) ("", 0)).1 =
      (bestFold (fieldCounts us) ("", 0)).2 := by
    have hl := alookup_of_mem_nodup (fieldCounts_keys_nodup us) hr_mem
    have h2 := fieldCounts_lookup us (bestFold (fieldCounts us) ("", 0)).1
    rw [show alookup (fieldCounts us) (bestFold (fieldCounts us) ("", 0)).1 =
          some (bestFold (fieldCounts us) ("", 0)).2 from hl] at h2
    simpa using h2.symm
  constructor
  · apply countField_pos_exists
    rw [bestFieldOf, hr_count]
    exact fieldCounts_entries_pos us _ hr_mem
  · intro u hu
    have hb := hall _ (memCount u hu)
    simp only [beats, Bool.or_eq_false_iff, Bool.and_eq_false_iff,
      decide_eq_false_iff_not, not_lt, beq_eq_false_iff_ne, ne_eq] at hb
    obtain ⟨hc, hs⟩ := hb
    rw [bestFieldOf, hr_count]
    refine ⟨hc, ?_⟩
    intro he
    rcases hs with h | h
    · exact absurd he h
    · exact h

theorem alookup_aset_isSome {α : Type} {m : List (String × α)} {k k' : String} (v : α)
    (h : (alookup m k).isSome = true) : (alookup (aset m k' v) k).isSome = true := by
  by_cases hk : k' = k
  · subst hk
    rw [alookup_aset_self]
    rfl
  · rw [alookup_aset_ne _ _ hk]
    exact h

theorem resolveNames_fold_preserves (keys : List String) (acc : EnumRegistry) (k : String)
    (h : (alookup acc.valueToName k).isSome = true) :
    (alookup (keys.foldl
      (fun acc valuesKey =>
        let group := acc.usages.filter (fun u => u.valuesKey = valuesKey)
        let name := acc.determineName group valuesKey
        { acc with valueToName := aset acc.valueToName valuesKey name,
                   nameToValues := aset acc.nameToValues name valuesKey })
      acc).valueToName k).isSome = true := by
  induction keys generalizing acc with
  | nil => exact h
  | cons k₀ rest ih =>
      simp only [List.foldl_cons]
      exact ih _ (alookup_aset_isSome _ h)

theorem resolveNames_fold_sets (keys : List String) (acc : EnumRegistry) (k : String)
    (h : k ∈ keys) :
    (alookup (keys.foldl
      (fun acc valuesKey =>
        let group := acc.usages.filter (fun u => u.valuesKey = valuesKey)
        let name := acc.determineName group valuesKey
        { acc with valueToName := aset acc.valueToName valuesKey name,
                   nameToValues := aset acc.nameToValues name valuesKey })
      acc).valueToName k).isSome = true := by
  induction keys generalizing acc with
  | nil => simp at h
  | cons k₀ rest ih =>
      simp only [List.foldl_cons]
      rcases List.mem_cons.mp h with h' | h'
      · subst h'
        apply resolveNames_fold_preserves
        rw [alookup_aset_self]
        rfl
      · exact ih _ h'

/-- Any enum value list observed by `CollectEnum` before the freeze is bound to
a canonical name by `ResolveNames`. -/
theorem collected_found (r : EnumRegistry) (f p : String) (values : List JValue) :
    (((r.collectEnum f p values).resolveNames).getCanonicalName values).isSome = true := by
  unfold EnumRegistry.resolveNames EnumRegistry.getCanonicalName EnumRegistry.collectEnum
  apply resolveNames_fold_sets
  rw [mem_sortStrings, mem_dedupStrings]
  simp

/-! ### Claim theorems -/

/-- C10: the enum canonical key depends only on the string-typed values.  Two
value lists whose string members agree as sorted sequences receive the same
canonical key, are recorded by `CollectEnum` under the same key, and get the
same `GetCanonicalName` answer; value lists without any string member all
collapse to the empty key, hence to one shared name. -/
theorem c10_canonical_key_ignores_nonstrings (v₁ v₂ : List JValue)
    (h : sortStrings (toStringSlice v₁) = sortStrings (toStringSlice v₂)) :
    canonicalKey (toStringSlice v₁) = canonicalKey (toStringSlice v₂) ∧
    (∀ r : EnumRegistry, r.getCanonicalName v₁ = r.getCanonicalName v₂) ∧
    (∀ (r : EnumRegistry) (f₁ p₁ f₂ p₂ : String),
      (r.collectEnum f₁ p₁ v₁).usages.map (·.valuesKey) =
        (r.collectEnum f₂ p₂ v₂).usages.map (·.valuesKey)) ∧
    (∀ w₁ w₂ : List JValue, toStringSlice w₁ = [] → toStringSlice w₂ = [] →
      canonicalKey (toStringSlice w₁) = "" ∧
      ∀ r : EnumRegistry, r.getCanonicalName w₁ = r.getCanonicalName w₂) := by
  have hkey : canonicalKey (toStringSlice v₁) = canonicalKey (toStringSlice v₂) := by
    unfold canonicalKey
    rw [h]
  refine ⟨hkey, ?_, ?_, ?_⟩
  · intro r
    unfold EnumRegistry.getCanonicalName
    rw [hkey]
  · intro r f₁ p₁ f₂ p₂
    unfold EnumRegistry.collectEnum
    simp [hkey]
  · intro w₁ w₂ h₁ h₂
    constructor
    · rw [h₁]; rfl
    · intro r
      unfold EnumRegistry.getCanonicalName
      rw [h₁, h₂]

theorem c10_witness :
    canonicalKey (toStringSlice [JValue.vStr "b", JValue.vStr "a", JValue.vInt 7]) =
      canonicalKey (toStringSlice [JValue.vStr "a", JValue.vStr "b"]) ∧
    (∀ r : EnumRegistry,
      r.getCanonicalName [JValue.vInt 1, JValue.vInt 2] =
        r.getCanonicalName [JValue.vBool true]) := by
  have h := c10_canonical_key_ignores_nonstrings
    [JValue.vStr "b", JValue.vStr "a", JValue.vInt 7]
    [JValue.vStr "a", JValue.vStr "b"] (by decide)
  exact ⟨h.1, fun r => (h.2.2.2 [JValue.vInt 1, JValue.vInt 2] [JValue.vBool true]
    (by decide) (by decide)).2 r⟩

/-- C7: resolution never fails.  A nil node resolves to the placeholder type
`"any"` with the state untouched (so nothing is appended), and during allOf
flattening a reference the schema lookup cannot resolve is skipped, the walk
continuing with the remaining members. -/
theorem c7_malformed_input_resilience :
    (∀ (fuel : Nat) (ctx : ResolverCtx) (st : ResolverState) (p f : String),
      resolveType fuel ctx st none p f = ("any", st)) ∧
    (∀ (fuel : Nat) (ctx : ResolverCtx) (st : ResolverState) (s : Schema)
       (rest : List Schema) (pn : String) (acc : FlattenAcc),
      s.ref ≠ "" → ctx.schemaLookup.bind (fun lk => lk s.ref) = none →
      flattenGo (fuel + 1) ctx st (s :: rest) pn acc = flattenGo fuel ctx st rest pn acc) := by
  constructor
  · intro fuel ctx st p f
    cases fuel <;> rfl
  · intro fuel ctx st s rest pn acc href hlk
    simp only [flattenGo, href, ne_eq, not_false_eq_true, if_true, hlk]

theorem c7_witness :
    resolveType 3 noCtx emptyState none "P" "f" = ("any", emptyState) ∧
    flattenGo 4 (flattenCtx fun _ => none) emptyState [refA] "X"
        { props := [], req := [], desc := "", seenProps := [] } =
      flattenGo 3 (flattenCtx fun _ => none) emptyState [] "X"
        { props := [], req := [], desc := "", seenProps := [] } := by
  refine ⟨(c7_malformed_input_resilience).1 3 noCtx emptyState "P" "f", ?_⟩
  exact (c7_malformed_input_resilience).2 3 (flattenCtx fun _ => none) emptyState refA [] "X"
    { props := [], req := [], desc := "", seenProps := [] } (by decide) rfl

/-- C8: a union variant is bound to a discriminator literal exactly when some
mapping entry's target reference matches the variant's reference verbatim or
resolves to the variant's type name; in the Cat/Dog example only Cat receives
the literal `"cat"`. -/
theorem c8_discriminator_binding :
    (∀ (mapping : List (String × String)) (vref tn : String),
      (findDiscMatch mapping vref tn).isSome = true ↔
        ∃ e ∈ mapping, vref = e.2 ∨ refToTypeName e.2 = tn) ∧
    ((resolveType 10 noCtx emptyState (some catDogUnion) "Pet" "Animal").2.nestedTypes.map
      (fun rt => (rt.name, rt.isUnion, rt.variants.map (fun v => (v.typeName, v.discValue)))) =
      [("PetAnimal", true, [("Cat", "cat"), ("Dog", "")])]) := by
  constructor
  · intro mapping vref tn
    unfold findDiscMatch
    rw [show (Option.map (fun x => x.1)
          (List.find? (fun e => vref == e.2 || refToTypeName e.2 == tn) mapping)).isSome =
        (List.find? (fun e => vref == e.2 || refToTypeName e.2 == tn) mapping).isSome from by
      cases List.find? (fun e => vref == e.2 || refToTypeName e.2 == tn) mapping <;> rfl]
    rw [List.find?_isSome]
    constructor
    · rintro ⟨e, he, hp⟩
      refine ⟨e, he, ?_⟩
      simpa using hp
    · rintro ⟨e, he, hp⟩
      refine ⟨e, he, ?_⟩
      simpa using hp
  · decide

theorem c8_witness :
    (findDiscMatch [("cat", "#/components/schemas/Cat")] "#/components/schemas/Cat" "Cat").isSome = true := by
  exact (c8_discriminator_binding.1 [("cat", "#/components/schemas/Cat")]
    "#/components/schemas/Cat" "Cat").mpr
    ⟨("cat", "#/components/schemas/Cat"), by decide, by decide⟩

theorem strLt_asymm {a b : String} (h : strLt a b = true) : strLt b a = false := by
  cases hv : strLt b a with
  | false => rfl
  | true =>
      have h2 := strLt_trans h hv
      rw [strLt_irrefl] at h2
      exact h2.symm

theorem strLe_total {a b : String} (h : strLe a b = false) : strLe b a = true := by
  simp only [strLe, Bool.not_eq_false'] at h
  simp only [strLe, strLt_asymm h, Bool.not_false]

theorem strLe_trans {a b c : String} (h₁ : strLe a b = true) (h₂ : strLe b c = true) :
    strLe a c = true := by
  simp only [strLe, Bool.not_eq_true'] at h₁ h₂ ⊢
  exact not_strLt_trans h₂ h₁

theorem insertSorted_perm (x : String) (l : List String) :
    (insertSorted x l).Perm (x :: l) := by
  induction l with
  | nil => exact List.Perm.refl _
  | cons y ys ih =>
      unfold insertSorted
      by_cases h : strLe x y = true
      · simp [h]
      · simp only [h, if_false]
        exact (ih.cons y).trans (List.Perm.swap x y ys)

theorem sortStrings_perm (l : List String) : (sortStrings l).Perm l := by
  induction l with
  | nil => exact List.Perm.refl _
  | cons y ys ih =>
      unfold sortStrings at *
      simp only [List.foldr_cons]
      exact (insertSorted_perm y _).trans (ih.cons y)

theorem insertSorted_pairwise (x : String) (l : List String)
    (h : l.Pairwise (fun a b => strLe a b = true)) :
    (insertSorted x l).Pairwise (fun a b => strLe a b = true) := by
  induction l with
  | nil => simp [insertSorted]
  | cons y ys ih =>
      rw [List.pairwise_cons] at h
      unfold insertSorted
      by_cases hxy : strLe x y = true
      · simp only [hxy, if_true]
        rw [List.pairwise_cons]
        constructor
        · intro a ha
          rcases List.mem_cons.mp ha with h' | h'
          · rw [h']; exact hxy
          · exact strLe_trans hxy (h.1 a h')
        · rw [List.pairwise_cons]
          exact h
      · have hxy' : strLe x y = false := by
          cases hv : strLe x y
          · rfl
          · exact absurd hv hxy
        simp only [hxy', Bool.false_eq_true, if_false]
        rw [List.pairwise_cons]
        constructor
        · intro a ha
          rcases mem_insertSorted.mp ha with h' | h'
          · rw [h']
            exact strLe_total hxy'
          · exact h.1 a h'
        · exact ih h.2

theorem sortStrings_pairwise (l : List String) :
    (sortStrings l).Pairwise (fun a b => strLe a b = true) := by
  induction l with
  | nil => simp [sortStrings]
  | cons y ys ih =>
      unfold sortStrings at *
      simp only [List.foldr_cons]
      exact insertSorted_pairwise y _ ih

/-- C2 counterexample: at the priority example, the group listed second
(values `{slow, fast}`) does not carry the value-derived suffix — it receives
the bare base name, because its canonical key `fast|slow` sorts before
`high|low` and collision suffixing hits the later-processed group. -/
theorem c2_counterexample :
    ¬ (regC2.getCanonicalName [JValue.vStr "slow", JValue.vStr "fast"] =
        some (PascalCase "priority" ++ valueSuffix ["slow", "fast"])) := by
  decide

/-- C2 (amended): per canonical-key group, the base name is the PascalCased
most frequent field name with lexicographic tie-break (the scan returns a
field of the group beaten by no other in count, nor lexicographically among
equal counts); the collision suffix concatenates the PascalCased two smallest
values (sorting is a permutation ordered by `strLe`, and the suffix uses its
first two elements); groups are processed in ascending canonical-key order, so
in the priority example `{slow, fast}` (key `fast|slow`) takes the bare name
`Priority` and `{low, high}` (key `high|low`) takes `PriorityHighLow`. -/
theorem c2_collision_suffixing_amended :
    (∀ us : List EnumUsage, us ≠ [] →
      (∃ u ∈ us, u.fieldName = bestFieldOf (fieldCounts us)) ∧
      ∀ u ∈ us, countField us u.fieldName ≤ countField us (bestFieldOf (fieldCounts us)) ∧
        (countField us u.fieldName = countField us (bestFieldOf (fieldCounts us)) →
          strLt u.fieldName (bestFieldOf (fieldCounts us)) = false)) ∧
    (∀ l : List String, (sortStrings l).Perm l ∧
      (sortStrings l).Pairwise (fun a b => strLe a b = true)) ∧
    (∀ (values : List String) (a b : String) (rest : List String),
      sortStrings values = a :: b :: rest →
      valueSuffix values = PascalCase a ++ PascalCase b) ∧
    (regC2.getCanonicalName [JValue.vStr "slow", JValue.vStr "fast"] = some "Priority" ∧
     regC2.getCanonicalName [JValue.vStr "low", JValue.vStr "high"] = some "PriorityHighLow") := by
  refine ⟨bestField_is_mode, fun l => ⟨sortStrings_perm l, sortStrings_pairwise l⟩, ?_, ?_⟩
  · intro values a b rest h
    unfold valueSuffix
    rw [h]
  · exact ⟨by decide, by decide⟩

theorem c2_witness :
    (∃ u ∈ regC2.usages, u.fieldName = bestFieldOf (fieldCounts regC2.usages)) ∧
    valueSuffix ["low", "high"] = PascalCase "high" ++ PascalCase "low" := by
  refine ⟨(c2_collision_suffixing_amended.1 regC2.usages (by decide)).1, ?_⟩
  exact c2_collision_suffixing_amended.2.2.1 ["low", "high"] "high" "low" [] (by decide)

theorem flatten_nodup_master : ∀ fuel : Nat,
    (∀ (ctx : ResolverCtx) (st : ResolverState) (ps : List (String × Option Schema))
       (pn : String) (acc : FlattenAcc),
      ((acc.props.map Prod.fst).Nodup ∧ ∀ n ∈ acc.props.map Prod.fst, n ∈ acc.seenProps) →
      (((flattenProps fuel ctx st ps pn acc).1.props.map Prod.fst).Nodup ∧
       ∀ n ∈ (flattenProps fuel ctx st ps pn acc).1.props.map Prod.fst,
          n ∈ (flattenProps fuel ctx st ps pn acc).1.seenProps)) ∧
    (∀ (ctx : ResolverCtx) (st : ResolverState) (ss : List Schema)
       (pn : String) (acc : FlattenAcc),
      ((acc.props.map Prod.fst).Nodup ∧ ∀ n ∈ acc.props.map Prod.fst, n ∈ acc.seenProps) →
      (((flattenGo fuel ctx st ss pn acc).1.props.map Prod.fst).Nodup ∧
       ∀ n ∈ (flattenGo fuel ctx st ss pn acc).1.props.map Prod.fst,
          n ∈ (flattenGo fuel ctx st ss pn acc).1.seenProps)) := by
  intro fuel
  induction fuel with
  | zero =>
      constructor
      · intro ctx st ps pn acc h
        simpa [flattenProps] using h
      · intro ctx st ss pn acc h
        simpa [flattenGo] using h
  | succ n ih =>
      obtain ⟨ihP, ihG⟩ := ih
      constructor
      · intro ctx st ps pn acc h
        match ps with
        | [] => simpa [flattenProps] using h
        | p :: rest =>
            simp only [flattenProps]
            by_cases hp : p.1 ∈ acc.seenProps
            · simp only [hp, if_true]
              exact ihP ctx st rest pn acc h
            · simp only [hp, if_false]
              apply ihP
              constructor
              · simp only [List.map_append, List.map_cons, List.map_nil]
                rw [List.nodup_append]
                refine ⟨h.1, by simp, ?_⟩
                intro a ha hb
                simp at hb
                exact hp (hb ▸ h.2 a ha)
              · intro m hm
                simp only [List.map_append, List.map_cons, List.map_nil,
                  List.mem_append, List.mem_singleton] at hm
                rcases hm with hm | hm
                · exact List.mem_cons_of_mem _ (h.2 m hm)
                · simp [hm]
      · intro ctx st ss pn acc h
        match ss with
        | [] => simpa [flattenGo] using h
        | s :: rest =>
            simp only [flattenGo]
            by_cases hr : s.ref ≠ ""
            · simp only [hr, ne_eq, not_false_eq_true, if_true]
              cases hlk : ctx.schemaLookup.bind (fun f => f s.ref) with
              | none => exact ihG ctx st rest pn acc h
              | some refSchema =>
                  simp only []
                  apply ihG
                  have h0 : ((if refSchema.allOf.length > 0 then
                        flattenGo n ctx st refSchema.allOf pn acc
                      else (acc, st)).1.props.map Prod.fst).Nodup ∧
                      ∀ m ∈ (if refSchema.allOf.length > 0 then
                        flattenGo n ctx st refSchema.allOf pn acc
                      else (acc, st)).1.props.map Prod.fst,
                        m ∈ (if refSchema.allOf.length > 0 then
                          flattenGo n ctx st refSchema.allOf pn acc
                        else (acc, st)).1.seenProps := by
                    by_cases hao : refSchema.allOf.length > 0
                    · simp only [hao, if_true]
                      exact ihG ctx st refSchema.allOf pn acc h
                    · simpa [hao] using h
                  exact ihP ctx _ refSchema.properties pn _ h0
            · simp only [hr, ite_false]
              apply ihG
              exact ihP ctx st s.properties pn acc h

theorem flattenAllOf_props_nodup (fuel : Nat) (ctx : ResolverCtx) (st : ResolverState)
    (ss : List Schema) (pn : String) :
    (((flattenAllOf fuel ctx st ss pn).1).properties.map Prod.fst).Nodup := by
  cases fuel with
  | zero => simp [flattenAllOf, mkMerged, Schema.properties]
  | succ n =>
      simp only [flattenAllOf, mkMerged, Schema.properties]
      exact ((flatten_nodup_master n).2 ctx st ss pn
        { props := [], req := [], desc := "", seenProps := [] } (by simp)).1

theorem mergeAllOfGo_required : ∀ (fuel : Nat) (ctx : ResolverCtx) (st : ResolverState)
    (ss : List Schema) (pn : String) (aA : List Schema)
    (aP : List (String × Option Schema)) (aR : List String) (aD : String) (req : String),
    ss.length ≤ fuel →
    (req ∈ (mergeAllOfGo fuel ctx st ss pn aA aP aR aD).1.required ↔
      req ∈ aR ∨ ∃ s ∈ ss, s.ref = "" ∧ req ∈ s.required) := by
  intro fuel
  induction fuel with
  | zero =>
      intro ctx st ss pn aA aP aR aD req hf
      have : ss = [] := List.eq_nil_of_length_eq_zero (Nat.le_zero.mp hf)
      subst this
      simp [mergeAllOfGo, mkMerged, Schema.required]
  | succ n ih =>
      intro ctx st ss pn aA aP aR aD req hf
      match ss with
      | [] => simp [mergeAllOfGo, mkMerged, Schema.required]
      | s :: rest =>
          simp only [List.length_cons, Nat.succ_le_succ_iff] at hf
          simp only [mergeAllOfGo]
          by_cases hr : s.ref ≠ ""
          · simp only [hr, ne_eq, not_false_eq_true, if_true]
            rw [ih ctx st rest pn _ _ _ _ req hf]
            constructor
            · rintro (h | ⟨t, ht, h⟩)
              · exact Or.inl h
              · exact Or.inr ⟨t, List.mem_cons_of_mem _ ht, h⟩
            · rintro (h | ⟨t, ht, h⟩)
              · exact Or.inl h
              · rcases List.mem_cons.mp ht with h' | h'
                · subst h'
                  exact absurd h.1 hr
                · exact Or.inr ⟨t, h', h⟩
          · simp only [hr, ite_false]
            rw [ih ctx _ rest pn _ _ _ _ req hf]
            rw [mem_foldl_insertSet]
            push_neg at hr
            constructor
            · rintro ((h | h) | ⟨t, ht, h⟩)
              · exact Or.inl h
              · exact Or.inr ⟨s, by simp, hr, h⟩
              · exact Or.inr ⟨t, List.mem_cons_of_mem _ ht, h⟩
            · rintro (h | ⟨t, ht, h⟩)
              · exact Or.inl (Or.inl h)
              · rcases List.mem_cons.mp ht with h' | h'
                · subst h'
                  exact Or.inl (Or.inr h.2)
                · exact Or.inr ⟨t, h', h⟩

/-- C3 counterexample: under the embed strategy, merging the inline members of
`allOf = [{x: string, required a}, {x: integer, required b}]` keeps the
property name `x` twice — `mergeAllOfSchemas` has no duplicate elimination —
so a name occurring in several merged members is not kept exactly once. -/
theorem c3_counterexample :
    (resolveType 10 noCtx emptyState (some dupAllOf) "Model" "Combined").2.nestedTypes.map
      (fun rt => rt.schema.properties.map Prod.fst) = [["x", "x"]] ∧
    ¬ (["x", "x"] : List String).Nodup := by
  exact ⟨by decide, by decide⟩

/-- C3 (amended): the first-occurrence-wins duplicate elimination holds for
the flatten strategy — a flattened declaration's property names are pairwise
distinct, and `allOf = [{x: string}, {x: integer}]` flattened keeps `x` once,
typed string — while the embed-strategy merge of inline members keeps every
occurrence of a duplicated name; the members' required sets are unioned in
both strategies (membership in the merged required list equals membership in
some inline member's required list). -/
theorem c3_property_merge_amended :
    (∀ (fuel : Nat) (ctx : ResolverCtx) (st : ResolverState) (ss : List Schema)
       (pn : String),
      (((flattenAllOf fuel ctx st ss pn).1).properties.map Prod.fst).Nodup) ∧
    ((resolveType 10 (flattenCtx lookupAB) emptyState (some dupAllOf) "Model" "Combined").2.nestedTypes.map
      (fun rt => rt.schema.properties.map (fun p => (p.1, p.2.map Schema.type))) =
      [[("x", some SchemaType.tString)]]) ∧
    ((resolveType 10 noCtx emptyState (some dupAllOf) "Model" "Combined").2.nestedTypes.map
      (fun rt => (rt.schema.properties.map (fun p => (p.1, p.2.map Schema.type)),
                  rt.schema.required)) =
      [([("x", some SchemaType.tString), ("x", some SchemaType.tInteger)], ["a", "b"])]) ∧
    (∀ (fuel : Nat) (ctx : ResolverCtx) (st : ResolverState) (ss : List Schema)
       (pn : String) (req : String),
      ss.length ≤ fuel →
      (req ∈ (mergeAllOfGo fuel ctx st ss pn [] [] [] "").1.required ↔
        ∃ s ∈ ss, s.ref = "" ∧ req ∈ s.required)) := by
  refine ⟨flattenAllOf_props_nodup, by decide, by decide, ?_⟩
  intro fuel ctx st ss pn req hf
  rw [mergeAllOfGo_required fuel ctx st ss pn [] [] [] "" req hf]
  simp

theorem c3_witness :
    (((flattenAllOf 9 (flattenCtx lookupAB) emptyState dupAllOf.allOf "ModelCombined").1).properties.map
      Prod.fst).Nodup ∧
    ("a" ∈ (mergeAllOfGo 9 noCtx emptyState dupAllOf.allOf "ModelCombined" [] [] [] "").1.required ↔
      ∃ s ∈ dupAllOf.allOf, s.ref = "" ∧ "a" ∈ s.required) := by
  exact ⟨c3_property_merge_amended.1 9 (flattenCtx lookupAB) emptyState dupAllOf.allOf
      "ModelCombined",
    c3_property_merge_amended.2.2.2 9 noCtx emptyState dupAllOf.allOf "ModelCombined" "a"
      (by decide)⟩

theorem setName_properties (sc : Schema) (n : String) :
    (sc.setName n).properties = sc.properties := by
  cases sc
  rfl

theorem setName_allOf (sc : Schema) (n : String) :
    (sc.setName n).allOf = sc.allOf := by
  cases sc
  rfl

/-- C4: an allOf whose members are all bare references. Embed strategy: one
declaration is appended whose schema keeps the allOf node's (empty) own
properties and the member references for embedding, flagged `isAllOf`.
Flatten strategy with a lookup: one declaration with own properties exactly
those of the referenced schemas, no embedding, required sets spliced, and a
referenced schema's own nested allOf chain expanded too. -/
theorem c4_allof_embed_vs_flatten :
    (∀ (fuel : Nat) (ctx : ResolverCtx) (st : ResolverState) (sc : Schema) (p f : String),
      sc.ref = "" → sc.oneOf = [] → sc.anyOf = [] → sc.allOf ≠ [] →
      (∀ m ∈ sc.allOf, m.ref ≠ "") → sc.properties = [] →
      (match ctx.cfg with | some c => c.allOfStrategy | none => "") ≠ "flatten" →
      p ++ PascalCase f ∉ st.seen →
      resolveType (fuel + 2) ctx st (some sc) p f =
        (p ++ PascalCase f,
         { st with seen := (p ++ PascalCase f) :: st.seen,
                   nestedTypes := st.nestedTypes ++
             [{ name := p ++ PascalCase f, schema := sc.setName (p ++ PascalCase f),
                isUnion := false, isAllOf := true, isEnum := false,
                discriminator := none, variants := [] }] }) ∧
      (sc.setName (p ++ PascalCase f)).properties = [] ∧
      (sc.setName (p ++ PascalCase f)).allOf = sc.allOf) ∧
    ((resolveType 10 (flattenCtx lookupAB) emptyState (some refsAllOf) "Model" "Combined").2.nestedTypes.map
      (fun rt => (rt.name, rt.isAllOf, rt.schema.properties.map Prod.fst,
                  rt.schema.allOf.length, rt.schema.required)) =
      [("ModelCombined", false, ["x", "y"], 0, ["x", "y"])]) ∧
    ((resolveType 10 (flattenCtx (fun r =>
        if r = "#/components/schemas/A" then
          some (.mk "" "" .tObject "" [("x", some strSchema)] ["x"] none []
            [refS "#/components/schemas/C"] [] [] none "" none)
        else if r = "#/components/schemas/B" then some (mkObj [("y", some strSchema)] ["y"])
        else if r = "#/components/schemas/C" then some (mkObj [("z", some strSchema)] ["z"])
        else none)) emptyState (some refsAllOf) "Model" "Combined").2.nestedTypes.map
      (fun rt => (rt.name, rt.schema.properties.map Prod.fst, rt.schema.required)) =
      [("ModelCombined", ["z", "x", "y"], ["z", "x", "y"])]) := by
  refine ⟨?_, by decide, by decide⟩
  intro fuel ctx st sc p f href hone hany hall hrefs hprops hcfg hseen
  have hone' : sc.oneOf.length = 0 := by rw [hone]; rfl
  have hany' : sc.anyOf.length = 0 := by rw [hany]; rfl
  have hall' : 0 < sc.allOf.length := List.length_pos.mpr hall
  have hflat : ((match ctx.cfg with
      | some c => decide (c.allOfStrategy = "flatten")
      | none => false) && ctx.schemaLookup.isSome) = false := by
    match hcfg₂ : ctx.cfg with
    | none => rfl
    | some c =>
        have : c.allOfStrategy ≠ "flatten" := by
          rw [hcfg₂] at hcfg
          simpa using hcfg
        simp [this]
  have hrefs' : sc.allOf.all (fun sub => decide (sub.ref ≠ "")) = true := by
    rw [List.all_eq_true]
    intro m hm
    simpa using hrefs m hm
  refine ⟨?_, by rw [setName_properties]; exact hprops, setName_allOf sc _⟩
  have e1 : resolveType (fuel + 2) ctx st (some sc) p f =
      resolveAllOf (fuel + 1) ctx st sc p f := by
    simp [resolveType, href, hone', hany', hall']
  rw [e1]
  have hrefs2 : sc.allOf.all (fun sub => sub.ref ≠ "") = true := by
    rw [List.all_eq_true]
    intro m hm
    simpa using hrefs m hm
  have hlen : (sc.setName (p ++ PascalCase f)).allOf.length > 0 := by
    rw [setName_allOf]
    exact hall'
  simp only [resolveAllOf, hseen, if_false, ite_false, hflat, Bool.false_eq_true,
    hrefs2, if_true]
  simp [hlen]

theorem c4_witness :
    resolveType 5 noCtx emptyState (some refsAllOf) "Model" "Combined" =
      ("Model" ++ PascalCase "Combined",
       { emptyState with seen := ("Model" ++ PascalCase "Combined") :: emptyState.seen,
                         nestedTypes := emptyState.nestedTypes ++
           [{ name := "Model" ++ PascalCase "Combined",
              schema := refsAllOf.setName ("Model" ++ PascalCase "Combined"),
              isUnion := false, isAllOf := true, isEnum := false,
              discriminator := none, variants := [] }] }) ∧
    (refsAllOf.setName ("Model" ++ PascalCase "Combined")).properties = [] := by
  have h := c4_allof_embed_vs_flatten.1 3 noCtx emptyState refsAllOf "Model" "Combined"
    rfl rfl rfl (by simp [refsAllOf, mkAllOf, Schema.allOf]) (by decide) rfl
    (by decide) (by decide)
  exact ⟨h.1, h.2.1⟩

theorem find?_perm_unique {α : Type} {l₁ l₂ : List α} {p : α → Bool}
    (hperm : l₁.Perm l₂)
    (huniq : ∀ a ∈ l₁, ∀ b ∈ l₁, p a = true → p b = true → a = b) :
    l₁.find? p = l₂.find? p := by
  cases h₁ : l₁.find? p with
  | none =>
      rw [List.find?_eq_none] at h₁
      symm
      rw [List.find?_eq_none]
      intro x hx
      exact h₁ x (hperm.mem_iff.mpr hx)
  | some a =>
      have hpa : p a = true := List.find?_some h₁
      have hma : a ∈ l₁ := List.mem_of_find?_eq_some h₁
      cases h₂ : l₂.find? p with
      | none =>
          rw [List.find?_eq_none] at h₂
          exact absurd hpa (by simpa using h₂ a (hperm.mem_iff.mp hma))
      | some b =>
          have hpb : p b = true := List.find?_some h₂
          have hmb : b ∈ l₁ := hperm.mem_iff.mpr (List.mem_of_find?_eq_some h₂)
          rw [huniq a hma b hmb hpa hpb]

/-- C6 counterexample: the discriminator-literal assignment depends on the
iteration order of the Go mapping, which two runs over identical inputs need
not share.  The same two-entry map, iterated in its two orders, binds the Cat
variant to `"cat"` in one run and to `"feline"` in the other. -/
theorem c6_counterexample :
    ([("cat", "#/components/schemas/Cat"), ("feline", "#/components/schemas/Cat")] :
      List (String × String)).Perm
      [("feline", "#/components/schemas/Cat"), ("cat", "#/components/schemas/Cat")] ∧
    (resolveType 10 noCtx emptyState
      (some (catUnionWith [("cat", "#/components/schemas/Cat"),
                           ("feline", "#/components/schemas/Cat")])) "Pet" "Animal").2.nestedTypes.map
      (fun rt => rt.variants.map (·.discValue)) = [["cat"]] ∧
    (resolveType 10 noCtx emptyState
      (some (catUnionWith [("feline", "#/components/schemas/Cat"),
                           ("cat", "#/components/schemas/Cat")])) "Pet" "Animal").2.nestedTypes.map
      (fun rt => rt.variants.map (·.discValue)) = [["feline"]] := by
  refine ⟨List.Perm.swap _ _ _, by decide, by decide⟩

/-- C6 (amended): the session state and the variants' type names never depend
on the discriminator mapping at all, so declaration names and ordering are
deterministic; the discriminator literals are additionally
iteration-order-independent whenever all union members are bare references and
no two distinct mapping entries match the same member — with such a mapping,
any two iteration orders of the same entry set give identical results. -/
theorem c6_determinism_amended :
    (∀ (fuel : Nat) (ctx : ResolverCtx) (st : ResolverState) (schemas : List Schema)
       (n pn : String) (m₁ m₂ : List (String × String)),
      (resolveVariants fuel ctx st schemas n (some ⟨pn, m₁⟩)).2 =
        (resolveVariants fuel ctx st schemas n (some ⟨pn, m₂⟩)).2 ∧
      (resolveVariants fuel ctx st schemas n (some ⟨pn, m₁⟩)).1.map (·.typeName) =
        (resolveVariants fuel ctx st schemas n (some ⟨pn, m₂⟩)).1.map (·.typeName)) ∧
    (∀ (fuel : Nat) (ctx : ResolverCtx) (st : ResolverState) (schemas : List Schema)
       (n pn : String) (m₁ m₂ : List (String × String)),
      m₁.Perm m₂ →
      (∀ v ∈ schemas, v.ref ≠ "") →
      (∀ v ∈ schemas, ∀ e₁ ∈ m₁, ∀ e₂ ∈ m₁,
        (v.ref == e₁.2 || refToTypeName e₁.2 == refToTypeName v.ref) = true →
        (v.ref == e₂.2 || refToTypeName e₂.2 == refToTypeName v.ref) = true → e₁ = e₂) →
      resolveVariants fuel ctx st schemas n (some ⟨pn, m₁⟩) =
        resolveVariants fuel ctx st schemas n (some ⟨pn, m₂⟩)) := by
  constructor
  · intro fuel
    induction fuel with
    | zero => intros; exact ⟨rfl, rfl⟩
    | succ k ih =>
        intro ctx st schemas n pn m₁ m₂
        match schemas with
        | [] => exact ⟨rfl, rfl⟩
        | v :: rest =>
            by_cases hv : v.ref = ""
            · obtain ⟨hst, hnames⟩ := ih ctx
                (resolveType k ctx st (some v) n "Variant").2 rest n pn m₁ m₂
              simp only [resolveVariants,
                if_neg (show ¬ (v.ref ≠ "") from fun h => h hv)]
              exact ⟨hst, by simp only [List.map_cons, hnames]⟩
            · obtain ⟨hst, hnames⟩ := ih ctx st rest n pn m₁ m₂
              simp only [resolveVariants, if_pos hv]
              exact ⟨hst, by simp only [List.map_cons, hnames]⟩
  · intro fuel
    induction fuel with
    | zero => intros; rfl
    | succ k ih =>
        intro ctx st schemas n pn m₁ m₂ hperm hrefs huniq
        match schemas with
        | [] => rfl
        | v :: rest =>
            simp only [resolveVariants]
            have hvr : v.ref ≠ "" := hrefs v (by simp)
            have hfind : findDiscMatch m₁ v.ref (refToTypeName v.ref) =
                findDiscMatch m₂ v.ref (refToTypeName v.ref) := by
              unfold findDiscMatch
              rw [find?_perm_unique hperm (huniq v (by simp))]
            simp only [hvr, ne_eq, not_false_eq_true, if_true, hfind]
            rw [ih ctx st rest n pn m₁ m₂ hperm
              (fun w hw => hrefs w (List.mem_cons_of_mem _ hw))
              (fun w hw => huniq w (List.mem_cons_of_mem _ hw))]

theorem c6_witness :
    resolveVariants 5 noCtx emptyState [refCat, refDog] "PetAnimal"
        (some ⟨"kind", [("cat", "#/components/schemas/Cat"),
                        ("dog", "#/components/schemas/Dog")]⟩) =
      resolveVariants 5 noCtx emptyState [refCat, refDog] "PetAnimal"
        (some ⟨"kind", [("dog", "#/components/schemas/Dog"),
                        ("cat", "#/components/schemas/Cat")]⟩) := by
  exact c6_determinism_amended.2 5 noCtx emptyState [refCat, refDog] "PetAnimal" "kind"
    [("cat", "#/components/schemas/Cat"), ("dog", "#/components/schemas/Dog")]
    [("dog", "#/components/schemas/Dog"), ("cat", "#/components/schemas/Cat")]
    (List.Perm.swap _ _ _) (by decide) (by decide)

theorem markGenerated_getCanonicalName (r : EnumRegistry) (n : String)
    (rt : ResolvedType) (v : List JValue) :
    (r.markGenerated n rt).getCanonicalName v = r.getCanonicalName v := rfl

theorem markGenerated_isGenerated (r : EnumRegistry) (n : String) (rt : ResolvedType) :
    (r.markGenerated n rt).isGenerated n = true := by
  unfold EnumRegistry.isGenerated EnumRegistry.markGenerated
  simp only []
  rw [alookup_aset_self]
  rfl

/-- C1: a value set collected during the pre-scan is always bound to a name by
the freeze, and two resolver sessions sharing the frozen registry both resolve
any schema carrying that value set — under any parent and field names — to
that one name; the session that resolves it first appends the single enum
declaration, and a later session sharing the updated registry returns the bare
name and appends nothing. -/
theorem c1_cross_pass_enum_stability :
    (∀ (r : EnumRegistry) (f p : String) (values : List JValue),
      (((r.collectEnum f p values).resolveNames).getCanonicalName values).isSome = true) ∧
    (∀ (reg : EnumRegistry) (name : String) (s₁ s₂ : Schema)
       (p₁ f₁ p₂ f₂ : String) (fuel₁ fuel₂ : Nat) (ctx₁ ctx₂ : ResolverCtx),
      reg.getCanonicalName s₁.enum = some name →
      reg.getCanonicalName s₂.enum = some name →
      reg.isGenerated name = false →
      s₁.ref = "" → s₁.oneOf = [] → s₁.anyOf = [] → s₁.allOf = [] →
      s₁.enum ≠ [] → p₁ ≠ "" →
      s₂.ref = "" → s₂.oneOf = [] → s₂.anyOf = [] → s₂.allOf = [] →
      s₂.enum ≠ [] → p₂ ≠ "" →
      (resolveType (fuel₁ + 1) ctx₁ (freshSession reg) (some s₁) p₁ f₁).1 = name ∧
      ((resolveType (fuel₁ + 1) ctx₁ (freshSession reg) (some s₁) p₁ f₁).2.nestedTypes.map
        (fun rt => (rt.name, rt.isEnum))) = [(name, true)] ∧
      (resolveType (fuel₂ + 1) ctx₂
        (freshSession (((resolveType (fuel₁ + 1) ctx₁ (freshSession reg) (some s₁) p₁ f₁).2.registry).getD reg))
        (some s₂) p₂ f₂).1 = name ∧
      (resolveType (fuel₂ + 1) ctx₂
        (freshSession (((resolveType (fuel₁ + 1) ctx₁ (freshSession reg) (some s₁) p₁ f₁).2.registry).getD reg))
        (some s₂) p₂ f₂).2.nestedTypes = []) := by
  refine ⟨collected_found, ?_⟩
  intro reg name s₁ s₂ p₁ f₁ p₂ f₂ fuel₁ fuel₂ ctx₁ ctx₂
  intro hget₁ hget₂ hgen hr₁ ho₁ ha₁ hl₁ he₁ hp₁ hr₂ ho₂ ha₂ hl₂ he₂ hp₂
  have dispatch : ∀ (fuel : Nat) (ctx : ResolverCtx) (st : ResolverState) (s : Schema)
      (p f : String), s.ref = "" → s.oneOf = [] → s.anyOf = [] → s.allOf = [] →
      s.enum ≠ [] → p ≠ "" →
      resolveType (fuel + 1) ctx st (some s) p f = resolveEnum st s p f := by
    intro fuel ctx st s p f h1 h2 h3 h4 h5 h6
    have h5' : 0 < s.enum.length := List.length_pos.mpr h5
    simp [resolveType, h1, h2, h3, h4, h5', h6]
  rw [dispatch fuel₁ ctx₁ _ s₁ p₁ f₁ hr₁ ho₁ ha₁ hl₁ he₁ hp₁]
  have hA : resolveEnum (freshSession reg) s₁ p₁ f₁ =
      (name, { nestedTypes := [enumDecl name (s₁.setName name)],
               seen := [name], enumValues := [], mappedImports := [],
               registry := some (reg.markGenerated name (enumDecl name (s₁.setName name))) }) := by
    simp [resolveEnum, freshSession, hget₁, hgen]
  rw [hA]
  have hB : resolveEnum
      (freshSession (reg.markGenerated name (enumDecl name (s₁.setName name)))) s₂ p₂ f₂ =
      (name, freshSession (reg.markGenerated name (enumDecl name (s₁.setName name)))) := by
    simp [resolveEnum, freshSession, markGenerated_getCanonicalName, hget₂,
      markGenerated_isGenerated]
  refine ⟨rfl, by simp [enumDecl], ?_, ?_⟩
  · rw [dispatch fuel₂ ctx₂ _ s₂ p₂ f₂ hr₂ ho₂ ha₂ hl₂ he₂ hp₂]
    simp only [Option.getD_some]
    rw [hB]
  · rw [dispatch fuel₂ ctx₂ _ s₂ p₂ f₂ hr₂ ho₂ ha₂ hl₂ he₂ hp₂]
    simp only [Option.getD_some]
    rw [hB]
    rfl

theorem c1_witness :
    (((EnumRegistry.new.collectEnum "status" "A"
        [JValue.vStr "pending", JValue.vStr "active"]).resolveNames).getCanonicalName
      [JValue.vStr "pending", JValue.vStr "active"]).isSome = true ∧
    (resolveType 5 noCtx (freshSession regC1) (some statusSchema) "A" "status").1 = "State" ∧
    (resolveType 5 noCtx
      (freshSession (((resolveType 5 noCtx (freshSession regC1) (some statusSchema) "A" "status").2.registry).getD regC1))
      (some statusSchema) "B" "state").2.nestedTypes = [] := by
  have h := c1_cross_pass_enum_stability.2 regC1 "State" statusSchema statusSchema
    "A" "status" "B" "state" 4 4 noCtx noCtx
    (by decide) (by decide) (by decide)
    rfl rfl rfl rfl (by decide) (by decide)
    rfl rfl rfl rfl (by decide) (by decide)
  exact ⟨c1_cross_pass_enum_stability.1 EnumRegistry.new "status" "A"
      [JValue.vStr "pending", JValue.vStr "active"],
    h.1, h.2.2.2⟩

theorem evolves_refl (st : ResolverState) : Evolves st st :=
  ⟨fun _ h => h, rfl⟩

theorem evolves_trans {a b c : ResolverState} (h₁ : Evolves a b) (h₂ : Evolves b c) :
    Evolves a c :=
  ⟨fun x hx => h₂.1 x (h₁.1 x hx), by rw [h₂.2, h₁.2]⟩

theorem resolveEnum_evolves (st : ResolverState) (sc : Schema) (p f : String) :
    Evolves st (resolveEnum st sc p f).2 := by
  unfold resolveEnum
  split
  · next reg heq =>
      split <;>
      · dsimp only
        split
        · exact evolves_refl st
        · split
          · exact evolves_refl st
          · exact ⟨fun x h => List.mem_cons_of_mem _ h, by rw [heq]; rfl⟩
  · dsimp only
    split
    · exact evolves_refl st
    · split
      · exact evolves_refl st
      · exact ⟨fun x h => List.mem_cons_of_mem _ h, rfl⟩

theorem evolves_master : ∀ fuel : Nat,
    (∀ (ctx : ResolverCtx) (st : ResolverState) (s : Option Schema) (p f : String),
      Evolves st (resolveType fuel ctx st s p f).2) ∧
    (∀ (ctx : ResolverCtx) (st : ResolverState) (sc : Schema) (p f : String),
      Evolves st (resolveObject fuel ctx st sc p f).2) ∧
    (∀ (ctx : ResolverCtx) (st : ResolverState) (props : List (String × Option Schema))
       (n : String), Evolves st (resolveProps fuel ctx st props n)) ∧
    (∀ (ctx : ResolverCtx) (st : ResolverState) (sc : Schema) (p f : String),
      Evolves st (resolveUnion fuel ctx st sc p f).2) ∧
    (∀ (ctx : ResolverCtx) (st : ResolverState) (vs : List Schema) (n : String)
       (d : Option Discriminator), Evolves st (resolveVariants fuel ctx st vs n d).2) ∧
    (∀ (ctx : ResolverCtx) (st : ResolverState) (sc : Schema) (p f : String),
      Evolves st (resolveAllOf fuel ctx st sc p f).2) ∧
    (∀ (ctx : ResolverCtx) (st : ResolverState) (ss : List Schema) (pn : String)
       (aA : List Schema) (aP : List (String × Option Schema)) (aR : List String)
       (aD : String), Evolves st (mergeAllOfGo fuel ctx st ss pn aA aP aR aD).2) ∧
    (∀ (ctx : ResolverCtx) (st : ResolverState) (ss : List Schema) (pn : String),
      Evolves st (flattenAllOf fuel ctx st ss pn).2) ∧
    (∀ (ctx : ResolverCtx) (st : ResolverState) (ss : List Schema) (pn : String)
       (acc : FlattenAcc), Evolves st (flattenGo fuel ctx st ss pn acc).2) ∧
    (∀ (ctx : ResolverCtx) (st : ResolverState) (ps : List (String × Option Schema))
       (pn : String) (acc : FlattenAcc), Evolves st (flattenProps fuel ctx st ps pn acc).2) := by
  intro fuel
  induction fuel with
  | zero =>
      exact ⟨fun _ st _ _ _ => evolves_refl st, fun _ st _ _ _ => evolves_refl st,
        fun _ st _ _ => evolves_refl st, fun _ st _ _ _ => evolves_refl st,
        fun _ st _ _ _ => evolves_refl st, fun _ st _ _ _ => evolves_refl st,
        fun _ st _ _ _ _ _ _ => evolves_refl st, fun _ st _ _ => evolves_refl st,
        fun _ st _ _ _ => evolves_refl st, fun _ st _ _ _ => evolves_refl st⟩
  | succ n ih =>
      obtain ⟨ihT, ihO, ihP, ihU, ihV, ihA, ihM, ihF, ihG, ihFP⟩ := ih
      refine ⟨?_, ?_, ?_, ?_, ?_, ?_, ?_, ?_, ?_, ?_⟩
      · -- resolveType
        intro ctx st s p f
        cases s with
        | none => exact evolves_refl st
        | some sc =>
            simp only [resolveType]
            split
            · split
              · exact ⟨fun x h => h, rfl⟩
              · exact evolves_refl st
            · split
              · exact ihU ctx st sc p f
              · split
                · exact ihA ctx st sc p f
                · split
                  · exact resolveEnum_evolves st sc p f
                  · split
                    · exact evolves_refl st
                    · exact evolves_refl st
                    · exact evolves_refl st
                    · exact evolves_refl st
                    · try dsimp only
                      exact ihT ctx st sc.items p (f ++ "Item")
                    · exact ihO ctx st sc p f
                    · exact evolves_refl st
      · -- resolveObject
        intro ctx st sc p f
        simp only [resolveObject]
        split
        · try dsimp only
          exact ihT ctx st _ p (f ++ "Value")
        · split
          · exact evolves_refl st
          · split
            · exact evolves_refl st
            · try dsimp only
              have hp := ihP ctx { st with seen := (p ++ PascalCase f) :: st.seen }
                sc.properties (p ++ PascalCase f)
              exact ⟨fun x h => hp.1 x (List.mem_cons_of_mem _ h), hp.2⟩
      · -- resolveProps
        intro ctx st props n'
        match props with
        | [] => exact evolves_refl st
        | pr :: rest =>
            simp only [resolveProps]
            exact evolves_trans (ihT ctx st pr.2 n' pr.1) (ihP ctx _ rest n')
      · -- resolveUnion
        intro ctx st sc p f
        simp only [resolveUnion]
        split
        · exact evolves_refl st
        · try dsimp only
          have hv := ihV ctx { st with seen := (p ++ PascalCase f) :: st.seen }
            (if sc.oneOf.length > 0 then sc.oneOf else sc.anyOf) (p ++ PascalCase f)
            sc.discriminator
          exact ⟨fun x h => hv.1 x (List.mem_cons_of_mem _ h), hv.2⟩
      · -- resolveVariants
        intro ctx st vs n' d
        match vs with
        | [] => exact evolves_refl st
        | v :: rest =>
            simp only [resolveVariants]
            try dsimp only
            refine evolves_trans ?_ (ihV ctx _ rest n' d)
            by_cases hv : v.ref ≠ ""
            · rw [if_pos hv]
              exact evolves_refl st
            · rw [if_neg hv]
              exact ihT ctx st (some v) n' "Variant"
      · -- resolveAllOf
        intro ctx st sc p f
        simp only [resolveAllOf]
        split
        · exact evolves_refl st
        · try dsimp only
          split
          · have hf := ihF ctx { st with seen := (p ++ PascalCase f) :: st.seen }
              sc.allOf (p ++ PascalCase f)
            exact ⟨fun x h => hf.1 x (List.mem_cons_of_mem _ h), hf.2⟩
          · split
            · exact ⟨fun x h => List.mem_cons_of_mem _ h, rfl⟩
            · have hm := ihM ctx { st with seen := (p ++ PascalCase f) :: st.seen }
                sc.allOf (p ++ PascalCase f) [] [] [] ""
              exact ⟨fun x h => hm.1 x (List.mem_cons_of_mem _ h), hm.2⟩
      · -- mergeAllOfGo
        intro ctx st ss pn aA aP aR aD
        match ss with
        | [] => exact evolves_refl st
        | s :: rest =>
            simp only [mergeAllOfGo]
            split
            · exact ihM ctx st rest pn _ _ _ _
            · try dsimp only
              exact evolves_trans (ihP ctx st s.properties pn) (ihM ctx _ rest pn _ _ _ _)
      · -- flattenAllOf
        intro ctx st ss pn
        simp only [flattenAllOf]
        try dsimp only
        exact ihG ctx st ss pn _
      · -- flattenGo
        intro ctx st ss pn acc
        match ss with
        | [] => exact evolves_refl st
        | s :: rest =>
            simp only [flattenGo]
            split
            · split
              · exact ihG ctx st rest pn acc
              · try dsimp only
                refine evolves_trans ?_ (ihG ctx _ rest pn _)
                refine evolves_trans ?_ (ihFP ctx _ _ pn _)
                split
                · exact ihG ctx st _ pn acc
                · exact evolves_refl st
            · try dsimp only
              exact evolves_trans (ihFP ctx st s.properties pn acc)
                (ihG ctx _ rest pn _)
      · -- flattenProps
        intro ctx st ps pn acc
        match ps with
        | [] => exact evolves_refl st
        | pr :: rest =>
            simp only [flattenProps]
            split
            · exact ihFP ctx st rest pn acc
            · try dsimp only
              exact evolves_trans (ihT ctx st pr.2 pn pr.1) (ihFP ctx _ rest pn _)

/-- C9: after the freeze, `MarkGenerated` changes only the generated-tracking
map, leaving the two binding maps (and the usages) untouched; a whole-session
resolution never changes the bindings of the shared registry; and
`resolveEnum` either leaves the registry alone or marks one previously
unmarked name. -/
theorem c9_registry_frame :
    (∀ (r : EnumRegistry) (n : String) (rt : ResolvedType),
      (r.markGenerated n rt).valueToName = r.valueToName ∧
      (r.markGenerated n rt).nameToValues = r.nameToValues ∧
      (r.markGenerated n rt).usages = r.usages) ∧
    (∀ (fuel : Nat) (ctx : ResolverCtx) (st : ResolverState) (s : Option Schema)
       (p f : String),
      regBindings (resolveType fuel ctx st s p f).2.registry = regBindings st.registry) ∧
    (∀ (st : ResolverState) (sc : Schema) (p f : String) (reg : EnumRegistry),
      st.registry = some reg →
      (resolveEnum st sc p f).2.registry = st.registry ∨
      ∃ nm rt, reg.isGenerated nm = false ∧
        (resolveEnum st sc p f).2.registry = some (reg.markGenerated nm rt)) := by
  refine ⟨fun r n rt => ⟨rfl, rfl, rfl⟩,
    fun fuel ctx st s p f => ((evolves_master fuel).1 ctx st s p f).2, ?_⟩
  intro st sc p f reg hreg
  unfold resolveEnum
  rw [hreg]
  dsimp only
  split
  · left
    exact hreg
  · next hgen =>
      split
      · left
        exact hreg
      · right
        refine ⟨_, _, ?_, rfl⟩
        cases hv : reg.isGenerated (match reg.getCanonicalName sc.enum with
          | some n => n
          | none => PascalCase f) with
        | false => rfl
        | true => exact absurd hv hgen

theorem c9_witness :
    ((regC1.markGenerated "State" (enumDecl "State" statusSchema)).valueToName =
      regC1.valueToName ∧
     (regC1.markGenerated "State" (enumDecl "State" statusSchema)).nameToValues =
      regC1.nameToValues ∧
     (regC1.markGenerated "State" (enumDecl "State" statusSchema)).usages =
      regC1.usages) ∧
    ((resolveEnum (freshSession regC1) statusSchema "A" "status").2.registry =
        (freshSession regC1).registry ∨
      ∃ nm rt, regC1.isGenerated nm = false ∧
        (resolveEnum (freshSession regC1) statusSchema "A" "status").2.registry =
          some (regC1.markGenerated nm rt)) := by
  exact ⟨c9_registry_frame.1 regC1 "State" (enumDecl "State" statusSchema),
    c9_registry_frame.2.2 (freshSession regC1) statusSchema "A" "status" regC1 rfl⟩

theorem resolveEnum_idem (st : ResolverState) (sc : Schema) (p f : String) :
    resolveEnum (resolveEnum st sc p f).2 sc p f = resolveEnum st sc p f := by
  cases hreg : st.registry with
  | some reg =>
      cases hget : reg.getCanonicalName sc.enum with
      | some nm =>
          by_cases hgen : reg.isGenerated nm = true
          · simp [resolveEnum, hreg, hget, hgen]
          · by_cases hseen : nm ∈ st.seen
            · simp [resolveEnum, hreg, hget, hgen, hseen]
            · simp [resolveEnum, hreg, hget, hgen, hseen,
                markGenerated_getCanonicalName, markGenerated_isGenerated]
      | none =>
          by_cases hgen : reg.isGenerated (PascalCase f) = true
          · simp [resolveEnum, hreg, hget, hgen]
          · by_cases hseen : PascalCase f ∈ st.seen
            · simp [resolveEnum, hreg, hget, hgen, hseen]
            · simp [resolveEnum, hreg, hget, hgen, hseen,
                markGenerated_getCanonicalName, markGenerated_isGenerated]
  | none =>
      cases hlk : alookup st.enumValues (enumValuesKey sc.enum) with
      | some existing => simp [resolveEnum, hreg, hlk]
      | none =>
          by_cases hseen : (p ++ PascalCase f) ∈ st.seen
          · simp [resolveEnum, hreg, hlk, hseen]
          · simp [resolveEnum, hreg, hlk, hseen, alookup_aset_self]

theorem resolveUnion_shortcircuit (k : Nat) (ctx : ResolverCtx) (ST : ResolverState)
    (sc : Schema) (p f : String) (h : (p ++ PascalCase f) ∈ ST.seen) :
    resolveUnion (k + 1) ctx ST sc p f = (p ++ PascalCase f, ST) := by
  simp [resolveUnion, h]

theorem resolveUnion_fst_not_seen (k : Nat) (ctx : ResolverCtx) (ST : ResolverState)
    (sc : Schema) (p f : String) (h : (p ++ PascalCase f) ∉ ST.seen) :
    (resolveUnion (k + 1) ctx ST sc p f).1 = p ++ PascalCase f := by
  simp only [resolveUnion]
  rw [if_neg h]

theorem resolveUnion_marks_seen (k : Nat) (ctx : ResolverCtx) (ST : ResolverState)
    (sc : Schema) (p f : String) (h : (p ++ PascalCase f) ∉ ST.seen) :
    (p ++ PascalCase f) ∈ (resolveUnion (k + 1) ctx ST sc p f).2.seen := by
  simp only [resolveUnion]
  rw [if_neg h]
  exact ((evolves_master k).2.2.2.2.1 ctx _ _ _ _).1 _ (List.mem_cons_self _ _)

theorem resolveAllOf_shortcircuit (k : Nat) (ctx : ResolverCtx) (ST : ResolverState)
    (sc : Schema) (p f : String) (h : (p ++ PascalCase f) ∈ ST.seen) :
    resolveAllOf (k + 1) ctx ST sc p f = (p ++ PascalCase f, ST) := by
  simp [resolveAllOf, h]

theorem resolveAllOf_fst_not_seen (k : Nat) (ctx : ResolverCtx) (ST : ResolverState)
    (sc : Schema) (p f : String) (h : (p ++ PascalCase f) ∉ ST.seen) :
    (resolveAllOf (k + 1) ctx ST sc p f).1 = p ++ PascalCase f := by
  simp only [resolveAllOf]
  rw [if_neg h]
  try dsimp only
  split
  · rfl
  · split
    · rfl
    · rfl

theorem resolveAllOf_marks_seen (k : Nat) (ctx : ResolverCtx) (ST : ResolverState)
    (sc : Schema) (p f : String) (h : (p ++ PascalCase f) ∉ ST.seen) :
    (p ++ PascalCase f) ∈ (resolveAllOf (k + 1) ctx ST sc p f).2.seen := by
  simp only [resolveAllOf]
  rw [if_neg h]
  try dsimp only
  split
  · exact ((evolves_master k).2.2.2.2.2.2.2.1 ctx _ _ _).1 _ (List.mem_cons_self _ _)
  · split
    · exact List.mem_cons_self _ _
    · exact ((evolves_master k).2.2.2.2.2.2.1 ctx _ _ _ _ _ _ _).1 _
        (List.mem_cons_self _ _)

theorem resolveObject_shortcircuit (k : Nat) (ctx : ResolverCtx) (ST : ResolverState)
    (sc : Schema) (p f : String) (hap : sc.additionalProperties = none)
    (hne : sc.properties.isEmpty = false) (h : (p ++ PascalCase f) ∈ ST.seen) :
    resolveObject (k + 1) ctx ST sc p f = (p ++ PascalCase f, ST) := by
  simp only [resolveObject, hap]
  rw [hne]
  simp only [Bool.false_eq_true, if_false, ite_false]
  rw [if_pos h]

theorem resolveObject_fst_not_seen (k : Nat) (ctx : ResolverCtx) (ST : ResolverState)
    (sc : Schema) (p f : String) (hap : sc.additionalProperties = none)
    (hne : sc.properties.isEmpty = false) (h : (p ++ PascalCase f) ∉ ST.seen) :
    (resolveObject (k + 1) ctx ST sc p f).1 = p ++ PascalCase f := by
  simp only [resolveObject, hap]
  rw [hne]
  simp only [Bool.false_eq_true, if_false, ite_false]
  rw [if_neg h]

theorem resolveObject_marks_seen (k : Nat) (ctx : ResolverCtx) (ST : ResolverState)
    (sc : Schema) (p f : String) (hap : sc.additionalProperties = none)
    (hne : sc.properties.isEmpty = false) (h : (p ++ PascalCase f) ∉ ST.seen) :
    (p ++ PascalCase f) ∈ (resolveObject (k + 1) ctx ST sc p f).2.seen := by
  simp only [resolveObject, hap]
  rw [hne]
  simp only [Bool.false_eq_true, if_false, ite_false]
  rw [if_neg h]
  exact ((evolves_master k).2.2.1 ctx _ _ _).1 _ (List.mem_cons_self _ _)

theorem resolveObject_empty_props (k : Nat) (ctx : ResolverCtx) (ST : ResolverState)
    (sc : Schema) (p f : String) (hap : sc.additionalProperties = none)
    (he : sc.properties.isEmpty = true) :
    resolveObject (k + 1) ctx ST sc p f = ("map[string]any", ST) := by
  simp only [resolveObject, hap]
  rw [he]
  simp

/-- C5: resolving the same (node, parentName, fieldName) triple twice within
one session returns the same type reference and leaves the session state —
declaration list included — exactly as after the first resolution, for every
fuel bound, context, and starting state. -/
theorem c5_resolve_idempotent : ∀ (fuel : Nat) (ctx : ResolverCtx) (st : ResolverState)
    (s : Option Schema) (p f : String),
    resolveType fuel ctx (resolveType fuel ctx st s p f).2 s p f =
      resolveType fuel ctx st s p f := by
  intro fuel
  induction fuel using Nat.strong_induction_on with
  | _ fuel ih =>
    cases fuel with
    | zero => intro ctx st s p f; rfl
    | succ n =>
        intro ctx st s p f
        cases s with
        | none => rfl
        | some sc =>
            have union_idem : ∀ (m : Nat) (st' : ResolverState),
                resolveUnion m ctx (resolveUnion m ctx st' sc p f).2 sc p f =
                  resolveUnion m ctx st' sc p f := by
              intro m st'
              cases m with
              | zero => rfl
              | succ k =>
                  by_cases hseen : (p ++ PascalCase f) ∈ st'.seen
                  · rw [resolveUnion_shortcircuit k ctx st' sc p f hseen]
                    exact resolveUnion_shortcircuit k ctx st' sc p f hseen
                  · rw [resolveUnion_shortcircuit k ctx _ sc p f
                      (resolveUnion_marks_seen k ctx st' sc p f hseen),
                      ← resolveUnion_fst_not_seen k ctx st' sc p f hseen]
            have allof_idem : ∀ (m : Nat) (st' : ResolverState),
                resolveAllOf m ctx (resolveAllOf m ctx st' sc p f).2 sc p f =
                  resolveAllOf m ctx st' sc p f := by
              intro m st'
              cases m with
              | zero => rfl
              | succ k =>
                  by_cases hseen : (p ++ PascalCase f) ∈ st'.seen
                  · rw [resolveAllOf_shortcircuit k ctx st' sc p f hseen]
                    exact resolveAllOf_shortcircuit k ctx st' sc p f hseen
                  · rw [resolveAllOf_shortcircuit k ctx _ sc p f
                      (resolveAllOf_marks_seen k ctx st' sc p f hseen),
                      ← resolveAllOf_fst_not_seen k ctx st' sc p f hseen]
            have object_idem : ∀ (m : Nat), m ≤ n → ∀ (st' : ResolverState),
                resolveObject m ctx (resolveObject m ctx st' sc p f).2 sc p f =
                  resolveObject m ctx st' sc p f := by
              intro m hm st'
              cases m with
              | zero => rfl
              | succ k =>
                  cases hap : sc.additionalProperties with
                  | some ap =>
                      have harr := ih k (by omega) ctx st' (some ap) p (f ++ "Value")
                      simp only [resolveObject, hap]
                      try dsimp only
                      rw [harr]
                  | none =>
                      cases hempty : sc.properties.isEmpty with
                      | true =>
                          rw [resolveObject_empty_props k ctx st' sc p f hap hempty]
                          exact resolveObject_empty_props k ctx st' sc p f hap hempty
                      | false =>
                          by_cases hseen : (p ++ PascalCase f) ∈ st'.seen
                          · rw [resolveObject_shortcircuit k ctx st' sc p f hap hempty hseen]
                            exact resolveObject_shortcircuit k ctx st' sc p f hap hempty hseen
                          · rw [resolveObject_shortcircuit k ctx _ sc p f hap hempty
                              (resolveObject_marks_seen k ctx st' sc p f hap hempty hseen),
                              ← resolveObject_fst_not_seen k ctx st' sc p f hap hempty hseen]
            by_cases href : sc.ref ≠ ""
            · rcases hlk : alookup ctx.importMapping sc.ref with _ | pkg
              · have e : ∀ ST : ResolverState, resolveType (n + 1) ctx ST (some sc) p f =
                    (refToTypeName sc.ref, ST) := by
                  intro ST
                  simp [resolveType, href, hlk]
                simp only [e]
              · have e : ∀ ST : ResolverState, resolveType (n + 1) ctx ST (some sc) p f =
                    (packageName pkg ++ "." ++ refToTypeName sc.ref,
                     { ST with mappedImports := insertSet ST.mappedImports pkg }) := by
                  intro ST
                  simp [resolveType, href, hlk]
                simp only [e]
                simp [insertSet_of_mem (mem_insertSet.mpr (Or.inr rfl))]
            · push_neg at href
              by_cases hcomp : sc.oneOf.length > 0 ∨ sc.anyOf.length > 0
              · have hb : (decide (sc.oneOf.length > 0) || decide (sc.anyOf.length > 0)) = true := by
                  rcases hcomp with h | h
                  · simp [h]
                  · simp [h]
                have e : ∀ ST : ResolverState, resolveType (n + 1) ctx ST (some sc) p f =
                    resolveUnion n ctx ST sc p f := by
                  intro ST
                  simp [resolveType, href, hb]
                simp only [e]
                exact union_idem n st
              · have hb : (decide (sc.oneOf.length > 0) || decide (sc.anyOf.length > 0)) = false := by
                  push_neg at hcomp
                  simp [hcomp.1, hcomp.2]
                by_cases hallof : sc.allOf.length > 0
                · have e : ∀ ST : ResolverState, resolveType (n + 1) ctx ST (some sc) p f =
                      resolveAllOf n ctx ST sc p f := by
                    intro ST
                    simp [resolveType, href, hb, hallof]
                  simp only [e]
                  exact allof_idem n st
                · have hl : decide (sc.allOf.length > 0) = false := by simp [hallof]
                  by_cases henum : sc.enum.length > 0 ∧ p ≠ ""
                  · have hen : (decide (sc.enum.length > 0) && decide (p ≠ "")) = true := by
                      simp [henum.1, henum.2]
                    have e : ∀ ST : ResolverState, resolveType (n + 1) ctx ST (some sc) p f =
                        resolveEnum ST sc p f := by
                      intro ST
                      simp [resolveType, href, hb, hl, hen, hallof, henum.1, henum.2]
                    simp only [e]
                    exact resolveEnum_idem st sc p f
                  · have hen : (decide (sc.enum.length > 0) && decide (p ≠ "")) = false := by
                      by_cases h1 : sc.enum.length > 0
                      · have h2 : ¬(p ≠ "") := fun h2 => henum ⟨h1, h2⟩
                        simp [h2]
                      · simp [h1]
                    cases htype : sc.type with
                    | tString =>
                        have e : ∀ ST : ResolverState,
                            resolveType (n + 1) ctx ST (some sc) p f =
                            (goStringTypeR ctx sc.format, ST) := by
                          intro ST
                          simp [resolveType, href, hb, hl, hen, hallof, henum, htype]
                        simp only [e]
                    | tInteger =>
                        have e : ∀ ST : ResolverState,
                            resolveType (n + 1) ctx ST (some sc) p f =
                            (goIntegerType sc.format, ST) := by
                          intro ST
                          simp [resolveType, href, hb, hl, hen, hallof, henum, htype]
                        simp only [e]
                    | tNumber =>
                        have e : ∀ ST : ResolverState,
                            resolveType (n + 1) ctx ST (some sc) p f =
                            (goNumberType sc.format, ST) := by
                          intro ST
                          simp [resolveType, href, hb, hl, hen, hallof, henum, htype]
                        simp only [e]
                    | tBoolean =>
                        have e : ∀ ST : ResolverState,
                            resolveType (n + 1) ctx ST (some sc) p f = ("bool", ST) := by
                          intro ST
                          simp [resolveType, href, hb, hl, hen, hallof, henum, htype]
                        simp only [e]
                    | tArray =>
                        have e : ∀ ST : ResolverState,
                            resolveType (n + 1) ctx ST (some sc) p f =
                            ("[]" ++ (resolveType n ctx ST sc.items p (f ++ "Item")).1,
                             (resolveType n ctx ST sc.items p (f ++ "Item")).2) := by
                          intro ST
                          simp [resolveType, href, hb, hl, hen, hallof, henum, htype]
                        simp only [e]
                        rw [ih n (by omega) ctx st sc.items p (f ++ "Item")]
                    | tObject =>
                        have e : ∀ ST : ResolverState,
                            resolveType (n + 1) ctx ST (some sc) p f =
                            resolveObject n ctx ST sc p f := by
                          intro ST
                          simp [resolveType, href, hb, hl, hen, hallof, henum, htype]
                        simp only [e]
                        exact object_idem n (by omega) st
                    | tNull =>
                        have e : ∀ ST : ResolverState,
                            resolveType (n + 1) ctx ST (some sc) p f = ("any", ST) := by
                          intro ST
                          simp [resolveType, href, hb, hl, hen, hallof, henum, htype]
                        simp only [e]
                    | tNone =>
                        have e : ∀ ST : ResolverState,
                            resolveType (n + 1) ctx ST (some sc) p f = ("any", ST) := by
                          intro ST
                          simp [resolveType, href, hb, hl, hen, hallof, henum, htype]
                        simp only [e]
